import Mathlib

/-!
Verification development for the ASCII fire-effect simulator.

The simulation engine (`FireEngine` in `src/main.cpp` together with the inline
helpers of `fire_engine.h` and the color mapper of `colors.h`) is embedded
shallowly below:

* C `int` becomes `ℤ` (no arithmetic here ever approaches 2^31, so overflow is
  not modelled); C `int` division and modulus only ever see nonnegative
  operands in the embedded code, where Lean's `/` and `%` on `ℤ`/`ℕ` agree
  with C.
* C `float` arithmetic is modelled as exact rational arithmetic.  To keep the
  whole development executable by the kernel, rationals are represented by the
  unreduced fraction type `Frac` (numerator, positive denominator); the cast
  `static_cast<int>` (truncation toward zero) is `Frac.trunc`, implemented by
  `Int.tdiv`.
* The two heat buffers `heat_grid` / `new_heat_grid` are total functions
  `ℤ → ℤ → ℤ` (row, column); all writes the program performs are in range, and
  reads outside the logical `height × width` window never influence in-range
  results (this is proved, not assumed, where it matters).
* The `std::mt19937` draws are abstracted into two oracle streams
  `ri : ℕ → ℕ` (draws of `rand_int`, distribution `uniform_int(0,100)`) and
  `rf : ℕ → Frac` (draws of `rand_float`, distribution `uniform_real(0,1)`),
  consumed sequentially through an explicit position counter, exactly in the
  order the C++ code draws them.
* Wall-clock quantities (`stats.fps`, frame pacing) are outside the embedding;
  `FireStats` carries every other field.
-/

namespace FireSim

/-- Exact-rational model of a C `float` value: an unreduced fraction with a
positive denominator.  Floating-point rounding is abstracted away (arithmetic
is exact); `trunc` is the C cast to `int`, truncation toward zero. -/
structure Frac where
  num : ℤ
  den : ℤ
  pos : 0 < den

namespace Frac

def ofInt (n : ℤ) : Frac := ⟨n, 1, one_pos⟩

protected def add (a b : Frac) : Frac :=
  ⟨a.num * b.den + b.num * a.den, a.den * b.den, mul_pos a.pos b.pos⟩

protected def sub (a b : Frac) : Frac :=
  ⟨a.num * b.den - b.num * a.den, a.den * b.den, mul_pos a.pos b.pos⟩

protected def mul (a b : Frac) : Frac :=
  ⟨a.num * b.num, a.den * b.den, mul_pos a.pos b.pos⟩

protected def neg (a : Frac) : Frac := ⟨-a.num, a.den, a.pos⟩

/-- Division of a float by an integer quantity.  Every division the embedded
code performs has a positive divisor; the value for a nonpositive divisor is
junk (the numerator kept as is) and is never relied upon. -/
def divInt (a : Frac) (n : ℤ) : Frac :=
  if h : 0 < n then ⟨a.num, a.den * n, mul_pos a.pos h⟩ else a

/-- `std::abs` on floats. -/
def fabs (a : Frac) : Frac := ⟨|a.num|, a.den, a.pos⟩

instance : Add Frac := ⟨Frac.add⟩
instance : Sub Frac := ⟨Frac.sub⟩
instance : Mul Frac := ⟨Frac.mul⟩
instance : Neg Frac := ⟨Frac.neg⟩

protected def lt (a b : Frac) : Prop := a.num * b.den < b.num * a.den

instance : LT Frac := ⟨Frac.lt⟩

instance (a b : Frac) : Decidable (a < b) :=
  inferInstanceAs (Decidable (a.num * b.den < b.num * a.den))

/-- C truncation toward zero, `static_cast<int>` applied to a float value. -/
def trunc (a : Frac) : ℤ := a.num.tdiv a.den

theorem trunc_nonneg {a : Frac} (h : 0 ≤ a.num) : 0 ≤ a.trunc :=
  Int.tdiv_nonneg h (le_of_lt a.pos)

theorem trunc_le {a : Frac} {b : ℤ} (hb : 0 ≤ b) (h : a.num < (b + 1) * a.den) :
    a.trunc ≤ b := by
  rcases le_or_lt 0 a.num with hn | hn
  · rw [trunc, Int.tdiv_eq_ediv hn (le_of_lt a.pos)]
    have := Int.ediv_lt_of_lt_mul a.pos h
    omega
  · have h2 : 0 ≤ (-a.num).tdiv a.den :=
      Int.tdiv_nonneg (by omega) (le_of_lt a.pos)
    rw [Int.neg_tdiv] at h2
    unfold trunc
    omega

theorem trunc_lt {a : Frac} {b : ℤ} (hb : 0 < b) (h : a.num < b * a.den) :
    a.trunc < b := by
  have := trunc_le (b := b - 1) (by omega) (by rw [sub_add_cancel]; exact h)
  omega

end Frac

/-- `clamp_heat` from `fire_engine.h`: clamp an int heat value into `[0,100]`. -/
def clampHeat (value : ℤ) : ℤ :=
  if value < 0 then 0 else if value > 100 then 100 else value

theorem clampHeat_nonneg (v : ℤ) : 0 ≤ clampHeat v := by
  unfold clampHeat; split <;> [omega; skip]; split <;> omega

theorem clampHeat_le_100 (v : ℤ) : clampHeat v ≤ 100 := by
  unfold clampHeat; split <;> [omega; skip]; split <;> omega

theorem clampHeat_of_bounds {v : ℤ} (h0 : 0 ≤ v) (h1 : v ≤ 100) : clampHeat v = v := by
  unfold clampHeat; split <;> [omega; skip]; split <;> omega

/-! ### Color mapper (`colors.h`) -/

/-- The `FireColors` enum of `colors.h`, by its integer color-pair ids. -/
def FIRE_BLACK : ℤ := 1

def FIRE_RED : ℤ := 2

def FIRE_ORANGE : ℤ := 3

def FIRE_YELLOW : ℤ := 4

def FIRE_WHITE : ℤ := 5

def FIRE_BLUE : ℤ := 6

def FIRE_CYAN : ℤ := 7

def FIRE_MAGENTA : ℤ := 8

def FIRE_GREEN : ℤ := 9

/-- The `ColorScheme` enum of `colors.h`. -/
inductive ColorScheme
  | CLASSIC_FIRE
  | BLUE_FLAME
  | ICE_FIRE
  | PLASMA
  | RAINBOW
  | MATRIX
deriving DecidableEq

/-- `get_fire_color` from `colors.h` (the inline definition): maps a heat
level and scheme to a color-pair id.  The divisions in the `RAINBOW` branch
are C `int` division/modulus; they are only reached for `0 < heat < 100`,
where Lean's `ℤ` operations agree with C. -/
def getFireColor (heatLevel : ℤ) (scheme : ColorScheme) : ℤ :=
  if heatLevel ≤ 0 then FIRE_BLACK
  else if 100 ≤ heatLevel then
    match scheme with
    | .CLASSIC_FIRE => FIRE_WHITE
    | .BLUE_FLAME => FIRE_CYAN
    | .ICE_FIRE => FIRE_WHITE
    | .PLASMA => FIRE_MAGENTA
    | .RAINBOW => FIRE_YELLOW
    | .MATRIX => FIRE_GREEN
  else
    match scheme with
    | .CLASSIC_FIRE =>
      if heatLevel < 20 then FIRE_RED
      else if heatLevel < 40 then FIRE_ORANGE
      else if heatLevel < 70 then FIRE_YELLOW
      else FIRE_WHITE
    | .BLUE_FLAME =>
      if heatLevel < 30 then FIRE_BLUE
      else if heatLevel < 60 then FIRE_CYAN
      else FIRE_WHITE
    | .ICE_FIRE =>
      if heatLevel < 25 then FIRE_CYAN
      else if heatLevel < 50 then FIRE_WHITE
      else FIRE_YELLOW
    | .PLASMA =>
      if heatLevel < 30 then FIRE_MAGENTA
      else if heatLevel < 60 then FIRE_CYAN
      else FIRE_WHITE
    | .RAINBOW => FIRE_RED + heatLevel / 15 % 6
    | .MATRIX =>
      if heatLevel < 40 then FIRE_GREEN
      else FIRE_YELLOW

/-! ### Heat grids -/

/-- A heat buffer: a total function from (row, column) to the stored heat.
The engine only ever writes rows `0 ≤ y < height` and columns
`0 ≤ x < width`. -/
abbrev Grid := ℤ → ℤ → ℤ

/-- `grid[y][x] = v`. -/
def gset (g : Grid) (y x v : ℤ) : Grid :=
  fun y2 x2 => if y2 = y ∧ x2 = x then v else g y2 x2

/-- `grid[y][x] += v`. -/
def gadd (g : Grid) (y x v : ℤ) : Grid :=
  fun y2 x2 => if y2 = y ∧ x2 = x then g y2 x2 + v else g y2 x2

def zeroGrid : Grid := fun _ _ => 0

/-- Row-major traversal order of the `height × width` grid: the coordinate
pairs `(y, x)` exactly as the doubly-nested loops of `main.cpp` visit them. -/
def rowMajorCells (w h : ℕ) : List (ℤ × ℤ) :=
  (List.range h).flatMap (fun (y : ℕ) => (List.range w).map (fun (x : ℕ) => ((y : ℤ), (x : ℤ))))

/-! ### Fixed simulation parameters (constructor of `FireEngine`, `main.cpp`).
These members are set in the constructor and never reassigned. -/

/-- `cooling_rate = 0.85f`. -/
def coolingRate : Frac := ⟨17, 20, by omega⟩

/-- The rise fraction `0.3f` of `update_heat_diffusion`. -/
def riseFraction : Frac := ⟨3, 10, by omega⟩

/-- The lateral spread fraction `0.1f` of `update_heat_diffusion`. -/
def spreadFraction : Frac := ⟨1, 10, by omega⟩

/-- `turbulence = 0.1f`. -/
def turbulenceCoeff : Frac := ⟨1, 10, by omega⟩

/-- `base_heat = 80`. -/
def baseHeat : ℤ := 80

/-- `max_particles = 200`. -/
def maxParticles : ℕ := 200

/-! ### Particles and statistics -/

/-- `FireParticle` from `fire_engine.h`; the constructor
`FireParticle(px, py, h)` zeroes both velocities and sets `life = 100`. -/
structure FireParticle where
  px : Frac
  py : Frac
  vx : Frac
  vy : Frac
  heat : ℤ
  life : ℤ

/-- `FireStats` from `fire_engine.h`.  The `fps` member is computed from the
wall clock in `update_statistics` and is outside the embedding; every other
member is carried. -/
structure FireStats where
  total_heat : ℤ
  active_pixels : ℤ
  wind_speed : Frac
  fuel_level : ℤ
  average_temp : Frac
  max_temp : ℤ
  frames_rendered : ℤ

/-- The `FireEngine` state (`fire_engine.h`).  `rng`, the distribution
objects and the fixed parameters are not part of the state: randomness is an
oracle stream consumed through an explicit position, and the fixed parameters
are the constants above. -/
structure FireEngine where
  width : ℕ
  height : ℕ
  heat : Grid
  next : Grid
  windStrength : Frac
  windDirection : Frac
  fuelAmount : ℤ
  particles : List FireParticle
  scheme : ColorScheme
  stats : FireStats
  frameCount : ℤ
  updateCounter : ℤ

/-! ### `update_heat_diffusion` -/

/-- One iteration of the doubly-nested loop of `update_heat_diffusion`
(`main.cpp` 409-446), processing grid cell `c = (y, x)`: reads only the
current grid `cur`, writes into the accumulating next buffer `g`. -/
def diffuseCell (w : ℕ) (cur : Grid) (g : Grid) (c : ℤ × ℤ) : Grid :=
  let y := c.1
  let x := c.2
  let currentHeat := cur y x
  if currentHeat ≤ 0 then gset g y x 0
  else
    let newHeat0 : Frac := Frac.ofInt currentHeat * coolingRate
    let riseAmount : Frac := Frac.ofInt currentHeat * riseFraction
    let newHeat1 := if 0 < y then newHeat0 - riseAmount else newHeat0
    let g1 := if 0 < y then gadd g (y - 1) x riseAmount.trunc else g
    let spread : Frac := Frac.ofInt currentHeat * spreadFraction
    let g2 := if 0 < x then gadd g1 y (x - 1) spread.trunc else g1
    let newHeat2 := if 0 < x then newHeat1 - spread else newHeat1
    let g3 := if x < (w : ℤ) - 1 then gadd g2 y (x + 1) spread.trunc else g2
    let newHeat3 := if x < (w : ℤ) - 1 then newHeat2 - spread else newHeat2
    gset g3 y x (clampHeat newHeat3.trunc)

/-- `update_heat_diffusion` (`main.cpp` 409-446): the row-major fold of
`diffuseCell` over the whole grid, into the next buffer `nxt`. -/
def updateHeatDiffusion (w h : ℕ) (cur nxt : Grid) : Grid :=
  (rowMajorCells w h).foldl (diffuseCell w cur) nxt

/-! ### `apply_wind_effects` -/

/-- `0.2f`, the fraction of heat the wind pass moves. -/
def windMoveFraction : Frac := ⟨1, 5, by omega⟩

/-- The rows the wind loop visits: `y` with `y < height * 0.8f` (an `int`
versus `float` comparison in C). -/
def windRows (h : ℕ) : List ℤ :=
  ((List.range h).filter
    (fun (y : ℕ) => Frac.ofInt y < Frac.ofInt h * ⟨4, 5, by omega⟩)).map
    (fun (y : ℕ) => (y : ℤ))

/-- The body of the wind loop at cell `(y, x)` (`main.cpp` 451-475). -/
def windCell (w h : ℕ) (wind : Frac) (cur : Grid) (g : Grid) (c : ℤ × ℤ) : Grid :=
  let y := c.1
  let x := c.2
  let heat := cur y x
  if heat ≤ 0 then g
  else
    let windFactor : Frac := (Frac.ofInt ((h : ℤ) - y)).divInt h
    let windOffset : ℤ := (wind * windFactor).trunc
    if windOffset ≠ 0 then
      let targetX := x + windOffset
      if 0 ≤ targetX ∧ targetX < (w : ℤ) then
        let moved := (Frac.ofInt heat * windMoveFraction).trunc
        gadd (gadd g y targetX moved) y x (-moved)
      else g
    else g

/-- `apply_wind_effects` (`main.cpp` 451-475): early return when
`|wind_strength| < 0.1f`, otherwise the nested loop over the upper 80% of
rows.  It writes only into the next buffer. -/
def applyWindEffects (w h : ℕ) (wind : Frac) (cur : Grid) (g : Grid) : Grid :=
  if wind.fabs < ⟨1, 10, by omega⟩ then g
  else
    (windRows h).foldl
      (fun g2 y =>
        (List.range w).foldl (fun g3 (x : ℕ) => windCell w h wind cur g3 (y, (x : ℤ))) g2) g

/-! ### `add_fuel_source` -/

/-- The modulus `fuel_amount / 2` (C integer division) used by
`add_fuel_source`.  For `fuel_amount == 1` it is zero, making the C
expression `rand % (fuel_amount / 2)` a modulo by zero (undefined
behaviour); the embedding follows Lean's convention `r % 0 = r` there. -/
def fuelModulus (fuel : ℤ) : ℤ := fuel / 2

/-- The columns of the fuel band: `fuel_width = max(1, width / 3)` columns
starting at `(width - fuel_width) / 2` (all C `int` arithmetic on
nonnegative values). -/
def fuelBand (w : ℕ) : List ℤ :=
  let fuelWidth : ℕ := max 1 (w / 3)
  let startX : ℕ := (w - fuelWidth) / 2
  (List.range fuelWidth).map (fun k => ((startX + k : ℕ) : ℤ))

/-- The body of the fuel loop at column `x` (`main.cpp` 487-493): when `x`
is in range, draw one `rand_int` and raise the bottom-row cell to at least
`fuel_amount * 0.8f + rand % (fuel_amount / 2)` (the sum is a float,
truncated on assignment to `int`). -/
def fuelCell (w h : ℕ) (fuel : ℤ) (ri : ℕ → ℕ) (s : Grid × ℕ) (x : ℤ) : Grid × ℕ :=
  if 0 ≤ x ∧ x < (w : ℤ) then
    let fuelHeat : ℤ :=
      (Frac.ofInt fuel * ⟨4, 5, by omega⟩ +
        Frac.ofInt ((ri s.2 : ℤ) % fuelModulus fuel)).trunc
    let bottom : ℤ := (h : ℤ) - 1
    (gset s.1 bottom x (max (s.1 bottom x) fuelHeat), s.2 + 1)
  else s

/-- `add_fuel_source` (`main.cpp` 480-494): writes into the bottom row of
the *current* grid. -/
def addFuelSource (w h : ℕ) (fuel : ℤ) (ri : ℕ → ℕ) (g : Grid) (pos : ℕ) : Grid × ℕ :=
  if fuel ≤ 0 ∨ h = 0 then (g, pos)
  else (fuelBand w).foldl (fuelCell w h fuel ri) (g, pos)

/-! ### `add_turbulence` -/

/-- The body of the turbulence loop at cell `c` (`main.cpp` 499-510): cells
whose *current* heat exceeds 20 draw one `rand_float`, add the truncated
perturbation `(r - 0.5f) * turbulence * 20.0f` to the next buffer and then
re-clamp that cell. -/
def turbulenceCell (cur : Grid) (rf : ℕ → Frac) (s : Grid × ℕ) (c : ℤ × ℤ) : Grid × ℕ :=
  if 20 < cur c.1 c.2 then
    let turb : Frac := (rf s.2 - ⟨1, 2, by omega⟩) * turbulenceCoeff * ⟨20, 1, by omega⟩
    let g1 := gadd s.1 c.1 c.2 turb.trunc
    (gset g1 c.1 c.2 (clampHeat (g1 c.1 c.2)), s.2 + 1)
  else s

/-- `add_turbulence` (`main.cpp` 499-510). -/
def addTurbulence (w h : ℕ) (cur : Grid) (rf : ℕ → Frac) (g : Grid) (pos : ℕ) :
    Grid × ℕ :=
  (rowMajorCells w h).foldl (turbulenceCell cur rf) (g, pos)

/-! ### Particle system -/

/-- One particle's physics step in `update_particles` (`main.cpp` 515-543):
position advances by the old velocity, then buoyancy, random drift, air
resistance and wind adjust the velocity, and heat/life decay. -/
def updateParticle (wind : Frac) (drift : Frac) (p : FireParticle) : FireParticle :=
  let x := p.px + p.vx
  let y := p.py + p.vy
  let vy := p.vy - ⟨1, 10, by omega⟩
  let vx1 := p.vx + (drift - ⟨1, 2, by omega⟩) * ⟨1, 5, by omega⟩
  let vx2 := vx1 * ⟨19, 20, by omega⟩
  let vx := vx2 + wind * ⟨1, 10, by omega⟩
  ⟨x, y, vx, vy, p.heat - 2, p.life - 1⟩

/-- `update_particles` (`main.cpp` 515-543): each particle draws one
`rand_float` for its drift; particles with `life ≤ 0`, `heat ≤ 0` or
`y < 0` are erased in place. -/
def updateParticles (wind : Frac) (rf : ℕ → Frac) :
    List FireParticle → ℕ → List FireParticle × ℕ
  | [], pos => ([], pos)
  | p :: ps, pos =>
    let p2 := updateParticle wind (rf pos) p
    let rest := updateParticles wind rf ps (pos + 1)
    if p2.life ≤ 0 ∨ p2.heat ≤ 0 ∨ p2.py < Frac.ofInt 0 then rest
    else (p2 :: rest.1, rest.2)

/-- The cells `generate_particles` scans: rows `height / 2` to `height - 1`
(C `int` division), row-major. -/
def lowerHalfCells (w h : ℕ) : List (ℤ × ℤ) :=
  (List.range (h - h / 2)).flatMap
    (fun (j : ℕ) => (List.range w).map (fun (x : ℕ) => (((h / 2 + j : ℕ) : ℤ), (x : ℤ))))

/-- The scan of `generate_particles` (`main.cpp` 548-570): a cell hotter
than 60 draws the spawn test `rand_float < 0.1f`; on success the new
particle draws `rand_float` twice (velocities) and `rand_int` once (life),
and both loops break once the particle cap is reached. -/
def genCells (cur : Grid) (ri : ℕ → ℕ) (rf : ℕ → Frac) :
    List (ℤ × ℤ) → List FireParticle → ℕ → List FireParticle × ℕ
  | [], ps, pos => (ps, pos)
  | c :: rest, ps, pos =>
    let heat := cur c.1 c.2
    if 60 < heat then
      if rf pos < ⟨1, 10, by omega⟩ then
        let p : FireParticle :=
          { px := Frac.ofInt c.2
            py := Frac.ofInt c.1
            vx := (rf (pos + 1) - ⟨1, 2, by omega⟩) * ⟨2, 1, by omega⟩
            vy := -(rf (pos + 2)) * ⟨3, 1, by omega⟩
            heat := heat
            life := 20 + (ri (pos + 3) : ℤ) % 30 }
        let ps2 := ps ++ [p]
        if maxParticles ≤ ps2.length then (ps2, pos + 4)
        else genCells cur ri rf rest ps2 (pos + 4)
      else genCells cur ri rf rest ps (pos + 1)
    else genCells cur ri rf rest ps pos

/-- `generate_particles` (`main.cpp` 548-570): refused outright at the cap. -/
def generateParticles (w h : ℕ) (cur : Grid) (ri : ℕ → ℕ) (rf : ℕ → Frac)
    (ps : List FireParticle) (pos : ℕ) : List FireParticle × ℕ :=
  if maxParticles ≤ ps.length then (ps, pos)
  else genCells cur ri rf (lowerHalfCells w h) ps pos

/-! ### Statistics -/

/-- The accumulator pass of `update_statistics` (`main.cpp` 644-678):
`(total_heat, active_pixels, max_temp)` over cells with positive heat. -/
def statsFold (g : Grid) (acc : ℤ × ℤ × ℤ) (c : ℤ × ℤ) : ℤ × ℤ × ℤ :=
  let heat := g c.1 c.2
  if 0 < heat then (acc.1 + heat, acc.2.1 + 1, max acc.2.2 heat) else acc

/-- `update_statistics` (`main.cpp` 644-678), minus the wall-clock `fps`
member.  It reads the freshly swapped-in front grid. -/
def updateStatistics (w h : ℕ) (g : Grid) (wind : Frac) (fuel : ℤ) (frames : ℤ) :
    FireStats :=
  let t := (rowMajorCells w h).foldl (statsFold g) (0, 0, 0)
  { total_heat := t.1
    active_pixels := t.2.1
    max_temp := t.2.2
    average_temp := if 0 < t.2.1 then (Frac.ofInt t.1).divInt t.2.1 else Frac.ofInt 0
    wind_speed := wind
    fuel_level := fuel
    frames_rendered := frames }

/-! ### `update` and the public controls -/

/-- `update` (`main.cpp` 329-359): fuel injection into the current grid,
wind into the next buffer, diffusion, turbulence, particle update, particle
generation every other call, the buffer swap, then statistics (from the
just-swapped front grid and the pre-increment frame counter). -/
def update (ri : ℕ → ℕ) (rf : ℕ → Frac) (e : FireEngine) (pos : ℕ) : FireEngine × ℕ :=
  let uc := e.updateCounter + 1
  let fuelRes := addFuelSource e.width e.height e.fuelAmount ri e.heat pos
  let cur1 := fuelRes.1
  let nxt1 := applyWindEffects e.width e.height e.windStrength cur1 e.next
  let nxt2 := updateHeatDiffusion e.width e.height cur1 nxt1
  let turbRes := addTurbulence e.width e.height cur1 rf nxt2 fuelRes.2
  let partRes := updateParticles e.windStrength rf e.particles turbRes.2
  let genRes :=
    if uc % 2 = 0 then generateParticles e.width e.height cur1 ri rf partRes.1 partRes.2
    else partRes
  ({ e with
      heat := turbRes.1
      next := cur1
      particles := genRes.1
      stats := updateStatistics e.width e.height turbRes.1 e.windStrength e.fuelAmount
        e.frameCount
      frameCount := e.frameCount + 1
      updateCounter := uc }, genRes.2)

/-- `n` consecutive `update` calls, threading the random stream position. -/
def updateN (ri : ℕ → ℕ) (rf : ℕ → Frac) : ℕ → FireEngine × ℕ → FireEngine × ℕ
  | 0, s => s
  | n + 1, s => updateN ri rf n (update ri rf s.1 s.2)

/-- `std::clamp(strength, -5.0f, 5.0f)`. -/
def clampWind (v : Frac) : Frac :=
  if v < ⟨-5, 1, by omega⟩ then ⟨-5, 1, by omega⟩
  else if (⟨5, 1, by omega⟩ : Frac) < v then ⟨5, 1, by omega⟩
  else v

/-- `set_wind` (`main.cpp` 575-578): clamps the strength; the (never read)
`wind_direction` member is set from the *unclamped* sign test
`strength > 0 ? 1.0f : -1.0f`. -/
def setWind (strength : Frac) (e : FireEngine) : FireEngine :=
  { e with
      windStrength := clampWind strength
      windDirection := if Frac.ofInt 0 < strength then Frac.ofInt 1 else -Frac.ofInt 1 }

/-- `std::clamp(fuel_amount + amount, 0, 100)`. -/
def clampFuel (v : ℤ) : ℤ := if v < 0 then 0 else if 100 < v then 100 else v

/-- `add_fuel` (`main.cpp` 583-585). -/
def addFuel (amount : ℤ) (e : FireEngine) : FireEngine :=
  { e with fuelAmount := clampFuel (e.fuelAmount + amount) }

/-- `set_color_scheme` (`main.cpp` 637-639). -/
def setColorScheme (s : ColorScheme) (e : FireEngine) : FireEngine :=
  { e with scheme := s }

/-- `get_stats` (`fire_engine.h`): returns the stored snapshot, computing
nothing. -/
def getStats (e : FireEngine) : FireStats := e.stats

/-- `set_heat_at` (`fire_engine.h` inline, part_003 327-331): a
bounds-checked clamped write into the **next** buffer. -/
def setHeatAt (w h : ℕ) (x y heatVal : ℤ) (g : Grid) : Grid :=
  if 0 ≤ x ∧ x < (w : ℤ) ∧ 0 ≤ y ∧ y < (h : ℤ) then gset g y x (clampHeat heatVal) else g

/-- The `(dy, dx)` offset pairs of the explosion loops (`dy` outer), each in
`[-radius, radius]` with `radius = 3`. -/
def explosionOffsets : List (ℤ × ℤ) :=
  (List.range 7).flatMap
    (fun (i : ℕ) => (List.range 7).map (fun (j : ℕ) => ((i : ℤ) - 3, (j : ℤ) - 3)))

/-- One write of the explosion loop (`main.cpp` 611-619): cells with
squared distance at most `radius² = 9` get
`intensity * (1.0f - distance / 9.0f)` (truncated) written through
`set_heat_at`. -/
def explosionWrite (w h : ℕ) (x y I : ℤ) (g : Grid) (c : ℤ × ℤ) : Grid :=
  let distance := c.2 * c.2 + c.1 * c.1
  if distance ≤ 9 then
    let heatValue := (Frac.ofInt I * (Frac.ofInt 1 - (Frac.ofInt distance).divInt 9)).trunc
    setHeatAt w h (x + c.2) (y + c.1) heatValue g
  else g

/-- One iteration of the explosion particle loop (`main.cpp` 622-631): the
three random draws happen unconditionally; the particle is appended only
below the cap. -/
def explosionParticleStep (x y I : ℤ) (ri : ℕ → ℕ) (rf : ℕ → Frac)
    (s : List FireParticle × ℕ) : List FireParticle × ℕ :=
  let p : FireParticle :=
    { px := Frac.ofInt x
      py := Frac.ofInt y
      vx := (rf s.2 - ⟨1, 2, by omega⟩) * ⟨4, 1, by omega⟩
      vy := (rf (s.2 + 1) - ⟨1, 2, by omega⟩) * ⟨4, 1, by omega⟩
      heat := I
      life := 30 + (ri (s.2 + 2) : ℤ) % 20 }
  (if s.1.length < maxParticles then s.1 ++ [p] else s.1, s.2 + 3)

/-- `create_explosion` (`main.cpp` 608-632). -/
def createExplosion (x y I : ℤ) (ri : ℕ → ℕ) (rf : ℕ → Frac) (e : FireEngine)
    (pos : ℕ) : FireEngine × ℕ :=
  let nxt := explosionOffsets.foldl (explosionWrite e.width e.height x y I) e.next
  let pr := (List.range 10).foldl (fun s _ => explosionParticleStep x y I ri rf s)
    (e.particles, pos)
  ({ e with next := nxt, particles := pr.1 }, pr.2)

/-- `ignite_at` (`main.cpp` 590-603) in grid coordinates: the screen-to-grid
offset subtraction depends on the live terminal size and is outside the
embedding, so the target is taken directly as a (possibly out-of-range) grid
coordinate; the call is `create_explosion(grid_x, grid_y, 80)`. -/
def igniteAt (gridX gridY : ℤ) (ri : ℕ → ℕ) (rf : ℕ → Frac) (e : FireEngine)
    (pos : ℕ) : FireEngine × ℕ :=
  createExplosion gridX gridY 80 ri rf e pos

/-- The bottom-row columns `reset` seeds: `width / 4` up to (excluding)
`3 * width / 4`. -/
def resetBand (w : ℕ) : List ℤ :=
  (List.range (3 * w / 4 - w / 4)).map (fun k => ((w / 4 + k : ℕ) : ℤ))

/-- `reset` (`main.cpp` 301-324): zero both grids, clear particles, restore
wind/fuel/frame defaults, and seed the bottom band with
`base_heat + rand_int % 20`. -/
def reset (ri : ℕ → ℕ) (e : FireEngine) (pos : ℕ) : FireEngine × ℕ :=
  let seeded :=
    if 0 < e.height then
      (resetBand e.width).foldl
        (fun (s : Grid × ℕ) x =>
          (gset s.1 ((e.height : ℤ) - 1) x (baseHeat + (ri s.2 : ℤ) % 20), s.2 + 1))
        (zeroGrid, pos)
    else (zeroGrid, pos)
  ({ e with
      heat := seeded.1
      next := zeroGrid
      particles := []
      windStrength := Frac.ofInt 0
      windDirection := Frac.ofInt 0
      fuelAmount := 50
      frameCount := 0 }, seeded.2)

/-- The constructor `FireEngine(w, h)` followed by `init_grid` and `reset`.
The C++ `stats` member is left uninitialized by the constructor
(indeterminate until the first `update`), so it is supplied here as the
arbitrary `stats0`. -/
def initEngine (w h : ℕ) (stats0 : FireStats) (ri : ℕ → ℕ) (pos : ℕ) :
    FireEngine × ℕ :=
  reset ri
    { width := w
      height := h
      heat := zeroGrid
      next := zeroGrid
      windStrength := Frac.ofInt 0
      windDirection := Frac.ofInt 0
      fuelAmount := 50
      particles := []
      scheme := ColorScheme.CLASSIC_FIRE
      stats := stats0
      frameCount := 0
      updateCounter := 0 } pos

/-! ### Component lemmas for `Frac` -/

@[simp] theorem Frac.num_ofInt (n : ℤ) : (Frac.ofInt n).num = n := rfl

@[simp] theorem Frac.den_ofInt (n : ℤ) : (Frac.ofInt n).den = 1 := rfl

@[simp] theorem Frac.num_add (a b : Frac) : (a + b).num = a.num * b.den + b.num * a.den := rfl

@[simp] theorem Frac.den_add (a b : Frac) : (a + b).den = a.den * b.den := rfl

@[simp] theorem Frac.num_sub (a b : Frac) : (a - b).num = a.num * b.den - b.num * a.den := rfl

@[simp] theorem Frac.den_sub (a b : Frac) : (a - b).den = a.den * b.den := rfl

@[simp] theorem Frac.num_mul (a b : Frac) : (a * b).num = a.num * b.num := rfl

@[simp] theorem Frac.den_mul (a b : Frac) : (a * b).den = a.den * b.den := rfl

@[simp] theorem Frac.num_neg (a : Frac) : (-a).num = -a.num := rfl

@[simp] theorem Frac.den_neg (a : Frac) : (-a).den = a.den := rfl

theorem Frac.lt_def (a b : Frac) : a < b ↔ a.num * b.den < b.num * a.den := Iff.rfl

/-! ### Pointwise evaluation of grid writes -/

theorem gset_self (g : Grid) (y x v : ℤ) : gset g y x v y x = v := by simp [gset]

theorem gset_ne (g : Grid) (y x v : ℤ) {y2 x2 : ℤ} (h : ¬(y2 = y ∧ x2 = x)) :
    gset g y x v y2 x2 = g y2 x2 := by simp only [gset, if_neg h]

theorem gadd_eval (g : Grid) (y x v y2 x2 : ℤ) :
    gadd g y x v y2 x2 = g y2 x2 + (if y2 = y ∧ x2 = x then v else 0) := by
  simp only [gadd]; split <;> simp

/-! ### Sums of pointwise contributions -/

theorem map_sum_zero {α : Type} {f : α → ℤ} :
    ∀ {L : List α}, (∀ c ∈ L, f c = 0) → (L.map f).sum = 0
  | [], _ => rfl
  | c :: L, h => by
    simp only [List.map_cons, List.sum_cons, h c (by simp)]
    rw [map_sum_zero (fun c2 hc2 => h c2 (by simp [hc2]))]
    omega

theorem map_sum_single {α : Type} {f : α → ℤ} {c1 : α} :
    ∀ {L : List α}, L.Nodup → c1 ∈ L → (∀ c ∈ L, c ≠ c1 → f c = 0) →
      (L.map f).sum = f c1
  | [], _, h1, _ => absurd h1 (by simp)
  | c :: L, hnd, h1, hz => by
    rcases List.mem_cons.mp h1 with rfl | hmem
    · simp only [List.map_cons, List.sum_cons]
      rw [map_sum_zero (fun c2 hc2 => hz c2 (by simp [hc2])
        (fun he => (List.nodup_cons.mp hnd).1 (he ▸ hc2)))]
      omega
    · simp only [List.map_cons, List.sum_cons]
      rw [map_sum_single (List.nodup_cons.mp hnd).2 hmem
        (fun c2 hc2 hne => hz c2 (by simp [hc2]) hne),
        hz c (by simp) (fun he => (List.nodup_cons.mp hnd).1 (he ▸ hmem))]
      omega

theorem map_sum_pair {α : Type} {f : α → ℤ} {c1 c2 : α} (hne : c1 ≠ c2) :
    ∀ {L : List α}, L.Nodup → c1 ∈ L → c2 ∈ L →
      (∀ c ∈ L, c ≠ c1 → c ≠ c2 → f c = 0) → (L.map f).sum = f c1 + f c2
  | [], _, h1, _, _ => absurd h1 (by simp)
  | c :: L, hnd, h1, h2, hz => by
    rcases List.mem_cons.mp h1 with rfl | hm1
    · have hm2 : c2 ∈ L := by
        rcases List.mem_cons.mp h2 with he | hm
        · exact absurd he.symm hne
        · exact hm
      simp only [List.map_cons, List.sum_cons]
      rw [map_sum_single (List.nodup_cons.mp hnd).2 hm2
        (fun c3 hc3 hne3 => hz c3 (by simp [hc3])
          (fun he => (List.nodup_cons.mp hnd).1 (he ▸ hc3)) hne3)]
    · rcases List.mem_cons.mp h2 with rfl | hm2
      · simp only [List.map_cons, List.sum_cons]
        rw [map_sum_single (List.nodup_cons.mp hnd).2 hm1
          (fun c3 hc3 hne3 => hz c3 (by simp [hc3]) hne3
            (fun he => (List.nodup_cons.mp hnd).1 (he ▸ hc3)))]
        omega
      · simp only [List.map_cons, List.sum_cons]
        rw [map_sum_pair hne (List.nodup_cons.mp hnd).2 hm1 hm2
          (fun c3 hc3 => hz c3 (by simp [hc3])),
          hz c (by simp) (fun he => (List.nodup_cons.mp hnd).1 (he ▸ hm1))
            (fun he => (List.nodup_cons.mp hnd).1 (he ▸ hm2))]
        omega

/-! ### Decomposing a rectangle traversal at one visited position -/

/-- Splitting `List.range n` at a member. -/
theorem range_split {n i0 : ℕ} (hi : i0 < n) :
    List.range n =
      List.range i0 ++ [i0] ++ (List.range (n - i0 - 1)).map (fun k => i0 + 1 + k) := by
  have h2 : n = i0 + 1 + (n - i0 - 1) := by omega
  conv_lhs => rw [h2, List.range_add, List.range_succ]

/-- Decomposition of the row-major traversal of an `n × m` rectangle at the
visited position `(i0, j0)`, with a membership description of the cells
before and after it. -/
theorem rect_decomp {α : Type} (f : ℕ → ℕ → α) {n m i0 j0 : ℕ} (hi : i0 < n)
    (hj : j0 < m) :
    ∃ A B : List α,
      (List.range n).flatMap (fun i => (List.range m).map (f i)) = A ++ f i0 j0 :: B ∧
      (∀ c ∈ A, ∃ i j, i < n ∧ j < m ∧ c = f i j ∧ (i < i0 ∨ (i = i0 ∧ j < j0))) ∧
      (∀ c ∈ B, ∃ i j, i < n ∧ j < m ∧ c = f i j ∧ (i0 < i ∨ (i = i0 ∧ j0 < j))) ∧
      (∀ i j, i < n → j < m → (i0 < i ∨ (i = i0 ∧ j0 < j)) → f i j ∈ B) := by
  refine ⟨(List.range i0).flatMap (fun i => (List.range m).map (f i)) ++
      (List.range j0).map (f i0),
    (List.range (m - j0 - 1)).map (fun k => f i0 (j0 + 1 + k)) ++
      ((List.range (n - i0 - 1)).map (fun k => i0 + 1 + k)).flatMap
        (fun i => (List.range m).map (f i)), ?_, ?_, ?_, ?_⟩
  · rw [range_split hi, List.flatMap_append, List.flatMap_append]
    have hrow : (List.range m).map (f i0) =
        (List.range j0).map (f i0) ++ f i0 j0 ::
          (List.range (m - j0 - 1)).map (fun k => f i0 (j0 + 1 + k)) := by
      rw [range_split hj, List.map_append, List.map_append, List.map_map]
      simp [Function.comp]
    have hone : ([i0] : List ℕ).flatMap (fun i => (List.range m).map (f i)) =
        (List.range m).map (f i0) := by simp
    rw [hone, hrow]
    simp [List.append_assoc]
  · intro c hc
    rcases List.mem_append.mp hc with hc1 | hc2
    · rcases List.mem_flatMap.mp hc1 with ⟨i, hi2, hc3⟩
      rcases List.mem_map.mp hc3 with ⟨j, hj2, rfl⟩
      have hi3 := List.mem_range.mp hi2
      have hj3 := List.mem_range.mp hj2
      exact ⟨i, j, by omega, hj3, rfl, Or.inl hi3⟩
    · rcases List.mem_map.mp hc2 with ⟨j, hj2, rfl⟩
      have hj3 := List.mem_range.mp hj2
      exact ⟨i0, j, hi, by omega, rfl, Or.inr ⟨rfl, hj3⟩⟩
  · intro c hc
    rcases List.mem_append.mp hc with hc1 | hc2
    · rcases List.mem_map.mp hc1 with ⟨k, hk, rfl⟩
      have := List.mem_range.mp hk
      exact ⟨i0, j0 + 1 + k, hi, by omega, rfl, Or.inr ⟨rfl, by omega⟩⟩
    · rcases List.mem_flatMap.mp hc2 with ⟨i, hi2, hc3⟩
      rcases List.mem_map.mp hi2 with ⟨k, hk, rfl⟩
      rcases List.mem_map.mp hc3 with ⟨j, hj2, rfl⟩
      have := List.mem_range.mp hk
      exact ⟨i0 + 1 + k, j, by omega, List.mem_range.mp hj2, rfl, Or.inl (by omega)⟩
  · intro i j hi2 hj2 hcase
    rcases hcase with hlt | ⟨rfl, hgt⟩
    · refine List.mem_append.mpr (Or.inr (List.mem_flatMap.mpr
        ⟨i, List.mem_map.mpr ⟨i - i0 - 1, List.mem_range.mpr (by omega), by omega⟩,
          List.mem_map.mpr ⟨j, List.mem_range.mpr hj2, rfl⟩⟩))
    · refine List.mem_append.mpr (Or.inl (List.mem_map.mpr
        ⟨j - j0 - 1, List.mem_range.mpr (by omega), by congr 1; omega⟩))

/-- No duplicate cells in a rectangle traversal built from an injective
coordinate pairing. -/
theorem rect_nodup {α : Type} (f : ℕ → ℕ → α)
    (hinj : ∀ i1 j1 i2 j2, f i1 j1 = f i2 j2 → i1 = i2 ∧ j1 = j2) (n m : ℕ) :
    ((List.range n).flatMap (fun i => (List.range m).map (f i))).Nodup := by
  rw [List.nodup_flatMap]
  constructor
  · intro i _
    exact (List.nodup_range m).map (fun j1 j2 he => (hinj i j1 i j2 he).2)
  · have hlt : List.Pairwise (· < ·) (List.range n) := List.pairwise_lt_range n
    refine hlt.imp ?_
    intro i1 i2 hne c hc1 hc2
    rcases List.mem_map.mp hc1 with ⟨j1, _, rfl⟩
    rcases List.mem_map.mp hc2 with ⟨j2, _, he⟩
    have := (hinj i2 j2 i1 j1 he).1
    omega

/-- `rowMajorCells` in the shape the rectangle lemmas use. -/
theorem rowMajorCells_eq (w h : ℕ) :
    rowMajorCells w h =
      (List.range h).flatMap
        (fun i => (List.range w).map ((fun (i j : ℕ) => ((i : ℤ), (j : ℤ))) i)) := rfl

/-- Membership in the row-major cell list is exactly being in range. -/
theorem mem_rowMajorCells {w h : ℕ} {c : ℤ × ℤ} :
    c ∈ rowMajorCells w h ↔ 0 ≤ c.1 ∧ c.1 < (h : ℤ) ∧ 0 ≤ c.2 ∧ c.2 < (w : ℤ) := by
  rw [rowMajorCells]
  simp only [List.mem_flatMap, List.mem_map, List.mem_range]
  constructor
  · rintro ⟨i, hi, j, hj, rfl⟩
    refine ⟨?_, ?_, ?_, ?_⟩ <;> simp <;> omega
  · rintro ⟨h1, h2, h3, h4⟩
    exact ⟨c.1.toNat, by omega, c.2.toNat, by omega,
      by rcases c with ⟨a, b⟩; simp only [Prod.mk.injEq]; constructor <;> omega⟩

theorem rowMajorCells_nodup (w h : ℕ) : (rowMajorCells w h).Nodup := by
  rw [rowMajorCells_eq]
  exact rect_nodup (fun (i j : ℕ) => ((i : ℤ), (j : ℤ)))
    (fun i1 j1 i2 j2 he => by simp only [Prod.mk.injEq] at he; omega) h w

/-! ### Closed form of one diffusion pass -/

/-- The value `diffuseCell` assigns to its own cell `c`: the clamped retained
heat after cooling, minus the rise fraction when not in the top row, minus
each in-bounds lateral spread. -/
def diffOwn (w : ℕ) (cur : Grid) (c : ℤ × ℤ) : ℤ :=
  if cur c.1 c.2 ≤ 0 then 0
  else
    let ch := Frac.ofInt (cur c.1 c.2)
    let n0 := ch * coolingRate
    let n1 := if 0 < c.1 then n0 - ch * riseFraction else n0
    let n2 := if 0 < c.2 then n1 - ch * spreadFraction else n1
    let n3 := if c.2 < (w : ℤ) - 1 then n2 - ch * spreadFraction else n2
    clampHeat n3.trunc

/-- The heat that processing source cell `c` deposits into a target cell `t`
(meaningful for `t ≠ c`): rise into the cell above, spread into the left and
right neighbours. -/
def diffDeposit (w : ℕ) (cur : Grid) (c t : ℤ × ℤ) : ℤ :=
  if cur c.1 c.2 ≤ 0 then 0
  else
    (if 0 < c.1 ∧ t = (c.1 - 1, c.2) then
      (Frac.ofInt (cur c.1 c.2) * riseFraction).trunc else 0) +
    (if 0 < c.2 ∧ t = (c.1, c.2 - 1) then
      (Frac.ofInt (cur c.1 c.2) * spreadFraction).trunc else 0) +
    (if c.2 < (w : ℤ) - 1 ∧ t = (c.1, c.2 + 1) then
      (Frac.ofInt (cur c.1 c.2) * spreadFraction).trunc else 0)

/-- Pointwise effect of one `diffuseCell` iteration: the processed cell is
overwritten with its own retained heat — discarding anything previously
accumulated there — and every other cell merely gains this cell's deposit. -/
theorem diffuseCell_eval (w : ℕ) (cur g : Grid) (y x ty tx : ℤ) :
    diffuseCell w cur g (y, x) ty tx =
      if ty = y ∧ tx = x then diffOwn w cur (y, x)
      else g ty tx + diffDeposit w cur (y, x) (ty, tx) := by
  by_cases h0 : cur y x ≤ 0
  · simp only [diffuseCell, diffOwn, diffDeposit, h0, if_true, gset]
    split <;> omega
  · simp only [diffuseCell, diffOwn, diffDeposit, h0, if_false]
    by_cases ht : ty = y ∧ tx = x
    · rw [if_pos ht, gset, if_pos ht]
    · rw [if_neg ht, gset, if_neg ht]
      simp only [apply_ite (fun gg : Grid => gg ty tx), gadd_eval, Prod.mk.injEq]
      split_ifs <;> omega

/-- Folding `diffuseCell` over a cell list that does not contain `t` only
adds the cells' deposits into `t`. -/
theorem foldl_diffuse_not_mem (w : ℕ) (cur : Grid) {ty tx : ℤ} :
    ∀ {L : List (ℤ × ℤ)}, (ty, tx) ∉ L → ∀ g : Grid,
      (L.foldl (diffuseCell w cur) g) ty tx =
        g ty tx + (L.map (fun c => diffDeposit w cur c (ty, tx))).sum
  | [], _, g => by simp
  | c :: L, hnm, g => by
    obtain ⟨y, x⟩ := c
    have hne : ¬(ty = y ∧ tx = x) := by
      rintro ⟨rfl, rfl⟩
      exact hnm (List.mem_cons_self _ _)
    have ht : (ty, tx) ∉ L := fun hm => hnm (List.mem_cons_of_mem _ hm)
    simp only [List.foldl_cons, List.map_cons, List.sum_cons]
    rw [foldl_diffuse_not_mem w cur ht, diffuseCell_eval, if_neg hne]
    omega

/-- The deposits that land on `(y, x)` *after* its own write in row-major
order: the rise from the cell below and the spread from the right
neighbour. -/
def lateDeposits (w h : ℕ) (cur : Grid) (y x : ℤ) : ℤ :=
  (if y + 1 < (h : ℤ) ∧ 0 < cur (y + 1) x then
    (Frac.ofInt (cur (y + 1) x) * riseFraction).trunc else 0) +
  (if x + 1 < (w : ℤ) ∧ 0 < cur y (x + 1) then
    (Frac.ofInt (cur y (x + 1)) * spreadFraction).trunc else 0)

/-- A source cell that is none of `t`'s three possible depositors deposits
nothing into `t`. -/
theorem diffDeposit_eq_zero {w : ℕ} {cur : Grid} {c t : ℤ × ℤ}
    (h1 : c ≠ (t.1 + 1, t.2)) (h2 : c ≠ (t.1, t.2 + 1)) (h3 : c ≠ (t.1, t.2 - 1)) :
    diffDeposit w cur c t = 0 := by
  obtain ⟨y, x⟩ := c
  obtain ⟨ty, tx⟩ := t
  simp only [ne_eq, Prod.mk.injEq] at h1 h2 h3
  simp only [diffDeposit, Prod.mk.injEq]
  split_ifs <;> omega

/-- The deposit the cell below makes into `(y, x)`: the rise fraction. -/
theorem diffDeposit_below (w : ℕ) (cur : Grid) (y x : ℤ) (hy : 0 ≤ y) :
    diffDeposit w cur (y + 1, x) (y, x) =
      if 0 < cur (y + 1) x then (Frac.ofInt (cur (y + 1) x) * riseFraction).trunc
      else 0 := by
  simp only [diffDeposit, Prod.mk.injEq, and_true]
  split_ifs <;> omega

/-- The deposit the right neighbour makes into `(y, x)`: the spread
fraction. -/
theorem diffDeposit_right (w : ℕ) (cur : Grid) (y x : ℤ) (hx : 0 ≤ x) :
    diffDeposit w cur (y, x + 1) (y, x) =
      if 0 < cur y (x + 1) then (Frac.ofInt (cur y (x + 1)) * spreadFraction).trunc
      else 0 := by
  simp only [diffDeposit, Prod.mk.injEq, and_true, true_and]
  split_ifs <;> omega

/-- The closed form of one whole diffusion pass at an in-range cell: the
cell's own clamped retained heat plus only the two deposits arriving after
its own write.  In particular the result does not depend on the previous
contents of the next buffer, nor on anything deposited into the cell before
its own write. -/
theorem updateHeatDiffusion_in (w h : ℕ) (cur nxt : Grid) {y x : ℤ}
    (hy0 : 0 ≤ y) (hyh : y < (h : ℤ)) (hx0 : 0 ≤ x) (hxw : x < (w : ℤ)) :
    updateHeatDiffusion w h cur nxt y x = diffOwn w cur (y, x) + lateDeposits w h cur y x := by
  obtain ⟨A, B, heq, hA, hB, hBmem⟩ :=
    @rect_decomp _ (fun (i j : ℕ) => ((i : ℤ), (j : ℤ))) h w y.toNat x.toNat
      (by omega) (by omega)
  have hyx : ((y.toNat : ℤ), (x.toNat : ℤ)) = ((y, x) : ℤ × ℤ) := by
    simp only [Prod.mk.injEq]; omega
  rw [hyx] at heq
  have hBzero : ∀ c ∈ B, c ≠ (y + 1, x) → c ≠ (y, x + 1) →
      diffDeposit w cur c (y, x) = 0 := by
    intro c hc hne1 hne2
    rcases hB c hc with ⟨i, j, hi, hj, rfl, horder⟩
    apply diffDeposit_eq_zero hne1 hne2
    simp only [ne_eq, Prod.mk.injEq]
    omega
  have hnmB : ((y, x) : ℤ × ℤ) ∉ B := by
    intro hc
    rcases hB _ hc with ⟨i, j, hi, hj, he, horder⟩
    simp only [Prod.mk.injEq] at he
    omega
  have hndB : B.Nodup := by
    have hall : (rowMajorCells w h).Nodup := rowMajorCells_nodup w h
    rw [rowMajorCells_eq, heq] at hall
    exact (List.Nodup.of_append_right hall).of_cons
  have hstep : updateHeatDiffusion w h cur nxt y x =
      diffOwn w cur (y, x) + (B.map (fun c => diffDeposit w cur c (y, x))).sum := by
    rw [updateHeatDiffusion, rowMajorCells_eq, heq, List.foldl_append, List.foldl_cons]
    rw [foldl_diffuse_not_mem w cur hnmB]
    rw [diffuseCell_eval, if_pos ⟨rfl, rfl⟩]
  rw [hstep]
  congr 1
  by_cases hrise : y + 1 < (h : ℤ)
  · have hm1 : ((y + 1, x) : ℤ × ℤ) ∈ B := by
      have := hBmem (y.toNat + 1) x.toNat (by omega) (by omega) (by omega)
      have he : (((y.toNat + 1 : ℕ) : ℤ), (x.toNat : ℤ)) = ((y + 1, x) : ℤ × ℤ) := by
        simp only [Prod.mk.injEq]; omega
      rwa [he] at this
    by_cases hspread : x + 1 < (w : ℤ)
    · have hm2 : ((y, x + 1) : ℤ × ℤ) ∈ B := by
        have := hBmem y.toNat (x.toNat + 1) (by omega) (by omega) (by omega)
        have he : ((y.toNat : ℤ), ((x.toNat + 1 : ℕ) : ℤ)) = ((y, x + 1) : ℤ × ℤ) := by
          simp only [Prod.mk.injEq]; omega
        rwa [he] at this
      rw [map_sum_pair (by simp only [ne_eq, Prod.mk.injEq]; omega) hndB hm1 hm2
        (fun c hc h1 h2 => hBzero c hc h1 h2)]
      rw [diffDeposit_below w cur y x hy0, diffDeposit_right w cur y x hx0]
      simp only [lateDeposits, hrise, hspread, true_and]
    · rw [map_sum_single hndB hm1
        (fun c hc h1 => hBzero c hc h1 (by
          rcases hB c hc with ⟨i, j, hi, hj, rfl, horder⟩
          simp only [ne_eq, Prod.mk.injEq]
          omega))]
      rw [diffDeposit_below w cur y x hy0]
      simp only [lateDeposits, hrise, hspread, true_and, false_and, if_false]
      omega
  · by_cases hspread : x + 1 < (w : ℤ)
    · have hm2 : ((y, x + 1) : ℤ × ℤ) ∈ B := by
        have := hBmem y.toNat (x.toNat + 1) (by omega) (by omega) (by omega)
        have he : ((y.toNat : ℤ), ((x.toNat + 1 : ℕ) : ℤ)) = ((y, x + 1) : ℤ × ℤ) := by
          simp only [Prod.mk.injEq]; omega
        rwa [he] at this
      rw [map_sum_single hndB hm2
        (fun c hc h2 => hBzero c hc (by
          rcases hB c hc with ⟨i, j, hi, hj, rfl, horder⟩
          simp only [ne_eq, Prod.mk.injEq]
          omega) h2)]
      rw [diffDeposit_right w cur y x hx0]
      simp only [lateDeposits, hrise, hspread, true_and, false_and, if_false]
      omega
    · rw [map_sum_zero (fun c hc => hBzero c hc (by
          rcases hB c hc with ⟨i, j, hi, hj, rfl, horder⟩
          simp only [ne_eq, Prod.mk.injEq]
          omega) (by
          rcases hB c hc with ⟨i, j, hi, hj, rfl, horder⟩
          simp only [ne_eq, Prod.mk.injEq]
          omega))]
      simp only [lateDeposits, hrise, hspread, false_and, if_false]
      omega

/-- Out-of-range cells of the next buffer are untouched by the diffusion
pass (every write of the pass is in range). -/
theorem updateHeatDiffusion_out (w h : ℕ) (cur nxt : Grid) {y x : ℤ}
    (hout : ¬(0 ≤ y ∧ y < (h : ℤ) ∧ 0 ≤ x ∧ x < (w : ℤ))) :
    updateHeatDiffusion w h cur nxt y x = nxt y x := by
  have hnm : ((y, x) : ℤ × ℤ) ∉ rowMajorCells w h := by
    intro hc
    exact hout (mem_rowMajorCells.mp hc)
  rw [updateHeatDiffusion, foldl_diffuse_not_mem w cur hnm]
  rw [map_sum_zero]
  · omega
  · intro c hc
    rcases mem_rowMajorCells.mp hc with ⟨h1, h2, h3, h4⟩
    simp only [diffDeposit, Prod.mk.injEq]
    split_ifs <;> omega

/-! ### Pointwise behaviour of the turbulence pass -/

theorem turbulenceCell_eval_ne {cur : Grid} {rf : ℕ → Frac} {s : Grid × ℕ}
    {c : ℤ × ℤ} {ty tx : ℤ} (h : ¬(ty = c.1 ∧ tx = c.2) ∨ cur c.1 c.2 ≤ 20) :
    (turbulenceCell cur rf s c).1 ty tx = s.1 ty tx := by
  unfold turbulenceCell
  by_cases h20 : 20 < cur c.1 c.2
  · rw [if_pos h20]
    have hne : ¬(ty = c.1 ∧ tx = c.2) := by
      rcases h with h | h
      · exact h
      · omega
    simp only [gset, gadd, if_neg hne]
  · rw [if_neg h20]

theorem turbulenceCell_eval_self {cur : Grid} {rf : ℕ → Frac} {s : Grid × ℕ}
    {c : ℤ × ℤ} (h20 : 20 < cur c.1 c.2) :
    (turbulenceCell cur rf s c).1 c.1 c.2 =
      clampHeat (s.1 c.1 c.2 +
        ((rf s.2 - ⟨1, 2, by omega⟩) * turbulenceCoeff * ⟨20, 1, by omega⟩).trunc) := by
  unfold turbulenceCell
  rw [if_pos h20]
  simp [gset, gadd]

theorem turbFold_untouched (cur : Grid) (rf : ℕ → Frac) {ty tx : ℤ} :
    ∀ (L : List (ℤ × ℤ)) (s : Grid × ℕ),
      (∀ c ∈ L, ¬(ty = c.1 ∧ tx = c.2) ∨ cur c.1 c.2 ≤ 20) →
      ((L.foldl (turbulenceCell cur rf) s).1) ty tx = s.1 ty tx
  | [], _, _ => rfl
  | c :: L, s, h => by
    simp only [List.foldl_cons]
    rw [turbFold_untouched cur rf L _ (fun c2 hc2 => h c2 (by simp [hc2]))]
    exact turbulenceCell_eval_ne (h c (by simp))

theorem turbFold_hot (cur : Grid) (rf : ℕ → Frac) {ty tx : ℤ} :
    ∀ (L : List (ℤ × ℤ)) (s : Grid × ℕ), L.Nodup → ((ty, tx) : ℤ × ℤ) ∈ L →
      20 < cur ty tx →
      ∃ v, ((L.foldl (turbulenceCell cur rf) s).1) ty tx = clampHeat v
  | [], _, _, hm, _ => absurd hm (by simp)
  | c :: L, s, hnd, hm, h20 => by
    simp only [List.foldl_cons]
    rcases List.mem_cons.mp hm with he | hm2
    · have hnm : ((ty, tx) : ℤ × ℤ) ∉ L := by
        rw [he]
        exact (List.nodup_cons.mp hnd).1
      rw [turbFold_untouched cur rf L _ (fun c2 hc2 => Or.inl (fun hA => hnm (by
        obtain ⟨e1, e2⟩ := hA
        rw [e1, e2, Prod.mk.eta]
        exact hc2)))]
      subst he
      exact ⟨_, turbulenceCell_eval_self h20⟩
    · exact turbFold_hot cur rf L _ (List.nodup_cons.mp hnd).2 hm2 h20

/-- Cells whose current heat is at most 20 are untouched by the turbulence
pass. -/
theorem addTurbulence_cold {w h : ℕ} {cur : Grid} {rf : ℕ → Frac} {g : Grid}
    {pos : ℕ} {ty tx : ℤ} (hcold : cur ty tx ≤ 20) :
    (addTurbulence w h cur rf g pos).1 ty tx = g ty tx := by
  unfold addTurbulence
  apply turbFold_untouched
  intro c _
  by_cases he : ty = c.1 ∧ tx = c.2
  · right
    rw [← he.1, ← he.2]
    exact hcold
  · left
    exact he

/-- Hot in-range cells are clamped by the turbulence pass. -/
theorem addTurbulence_hot {w h : ℕ} {cur : Grid} {rf : ℕ → Frac} {g : Grid}
    {pos : ℕ} {ty tx : ℤ} (h1 : 0 ≤ ty) (h2 : ty < (h : ℤ)) (h3 : 0 ≤ tx)
    (h4 : tx < (w : ℤ)) (hhot : 20 < cur ty tx) :
    ∃ v, (addTurbulence w h cur rf g pos).1 ty tx = clampHeat v := by
  unfold addTurbulence
  exact turbFold_hot cur rf _ _ (rowMajorCells_nodup w h)
    (mem_rowMajorCells.mpr ⟨h1, h2, h3, h4⟩) hhot

/-! ### Wind writes stay in range -/

/-- A fold of grid transformations that each leave the point `(ty, tx)`
unchanged leaves it unchanged. -/
theorem foldl_grid_untouched {α : Type} (f : Grid → α → Grid) {ty tx : ℤ} :
    ∀ (L : List α) (g : Grid), (∀ g2 a, a ∈ L → f g2 a ty tx = g2 ty tx) →
      (L.foldl f g) ty tx = g ty tx
  | [], _, _ => rfl
  | a :: L, g, hstep => by
    simp only [List.foldl_cons]
    rw [foldl_grid_untouched f L _ (fun g2 a2 ha2 => hstep g2 a2 (by simp [ha2]))]
    exact hstep g a (by simp)

theorem mem_windRows {h : ℕ} {y : ℤ} (hy : y ∈ windRows h) : 0 ≤ y ∧ y < (h : ℤ) := by
  unfold windRows at hy
  rcases List.mem_map.mp hy with ⟨a, ha, rfl⟩
  have := List.mem_range.mp (List.mem_filter.mp ha).1
  omega

theorem windCell_untouched {w h : ℕ} {wind : Frac} {cur : Grid} {g : Grid}
    {c : ℤ × ℤ} {ty tx : ℤ} (hrow : 0 ≤ c.1 ∧ c.1 < (h : ℤ))
    (hcol : 0 ≤ c.2 ∧ c.2 < (w : ℤ))
    (hout : ¬(0 ≤ ty ∧ ty < (h : ℤ) ∧ 0 ≤ tx ∧ tx < (w : ℤ))) :
    windCell w h wind cur g c ty tx = g ty tx := by
  simp only [windCell, apply_ite (fun gg : Grid => gg ty tx), gadd_eval]
  split_ifs <;> omega

/-- Out-of-range cells of the next buffer are untouched by the wind pass. -/
theorem applyWindEffects_out {w h : ℕ} {wind : Frac} {cur g : Grid} {ty tx : ℤ}
    (hout : ¬(0 ≤ ty ∧ ty < (h : ℤ) ∧ 0 ≤ tx ∧ tx < (w : ℤ))) :
    applyWindEffects w h wind cur g ty tx = g ty tx := by
  unfold applyWindEffects
  split
  · rfl
  · apply foldl_grid_untouched
    intro g2 y hy
    apply foldl_grid_untouched
    intro g3 x hx
    have hxw := List.mem_range.mp hx
    have hyy := mem_windRows hy
    refine windCell_untouched ⟨?_, ?_⟩ ⟨?_, ?_⟩ hout <;> simp <;> omega

/-! ### Bounds on the fuel-injection pass -/

/-- All random-int draws are in the range of `uniform_int_distribution(0,100)`. -/
def RandNatOK (ri : ℕ → ℕ) : Prop := ∀ n, ri n ≤ 100

/-- The injected fuel heat `fuel * 0.8f + rand % (fuel / 2)` lies in
`[0, 129]` for clamped fuel and in-range draws (recall the `fuel = 1` modulo
by zero is modelled as the identity). -/
theorem fuelHeat_bounds {fuel : ℤ} (h1 : 0 < fuel) (h2 : fuel ≤ 100) {r : ℕ}
    (hr : r ≤ 100) :
    0 ≤ (Frac.ofInt fuel * ⟨4, 5, by omega⟩ +
        Frac.ofInt ((r : ℤ) % fuelModulus fuel)).trunc ∧
      (Frac.ofInt fuel * ⟨4, 5, by omega⟩ +
        Frac.ofInt ((r : ℤ) % fuelModulus fuel)).trunc ≤ 129 := by
  have hm : 0 ≤ (r : ℤ) % fuelModulus fuel ∧
      ((fuel ≤ 1 ∧ (r : ℤ) % fuelModulus fuel ≤ 100) ∨
        (r : ℤ) % fuelModulus fuel + 1 ≤ fuel / 2) := by
    unfold fuelModulus
    by_cases hz : fuel / 2 = 0
    · rw [hz, Int.emod_zero]
      omega
    · have hpos : 0 < fuel / 2 := by omega
      have ha := Int.emod_nonneg (r : ℤ) (by omega : fuel / 2 ≠ 0)
      have hb := Int.emod_lt_of_pos (r : ℤ) hpos
      omega
  constructor
  · apply Frac.trunc_nonneg
    simp only [Frac.num_add, Frac.num_mul, Frac.den_mul, Frac.num_ofInt, Frac.den_ofInt]
    omega
  · apply Frac.trunc_le (by omega)
    simp only [Frac.num_add, Frac.den_add, Frac.num_mul, Frac.den_mul, Frac.num_ofInt,
      Frac.den_ofInt]
    omega

/-- The fuel pass keeps every in-range cell within `[0, 129]` when the grid
starts within `[0, 100]`. -/
theorem addFuelSource_bounds {w h : ℕ} {fuel : ℤ} {ri : ℕ → ℕ} {g : Grid} {pos : ℕ}
    (hg : ∀ ty tx : ℤ, 0 ≤ ty → ty < (h : ℤ) → 0 ≤ tx → tx < (w : ℤ) →
      0 ≤ g ty tx ∧ g ty tx ≤ 100)
    (hfuel : fuel ≤ 100) (hri : RandNatOK ri) :
    ∀ ty tx : ℤ, 0 ≤ ty → ty < (h : ℤ) → 0 ≤ tx → tx < (w : ℤ) →
      0 ≤ (addFuelSource w h fuel ri g pos).1 ty tx ∧
        (addFuelSource w h fuel ri g pos).1 ty tx ≤ 129 := by
  unfold addFuelSource
  split
  · intro ty tx hy1 hy2 hx1 hx2
    exact ⟨(hg ty tx hy1 hy2 hx1 hx2).1,
      le_trans (hg ty tx hy1 hy2 hx1 hx2).2 (by omega)⟩
  · rename_i hguard
    have hfpos : 0 < fuel := by
      rcases not_or.mp hguard with ⟨ha, _⟩
      omega
    have hh : 0 < h := by
      rcases not_or.mp hguard with ⟨_, hb⟩
      omega
    have key : ∀ (L : List ℤ) (s : Grid × ℕ),
        (∀ ty tx : ℤ, 0 ≤ ty → ty < (h : ℤ) → 0 ≤ tx → tx < (w : ℤ) →
          0 ≤ s.1 ty tx ∧ s.1 ty tx ≤ 129) →
        ∀ ty tx : ℤ, 0 ≤ ty → ty < (h : ℤ) → 0 ≤ tx → tx < (w : ℤ) →
          0 ≤ ((L.foldl (fuelCell w h fuel ri) s).1) ty tx ∧
            ((L.foldl (fuelCell w h fuel ri) s).1) ty tx ≤ 129 := by
      intro L
      induction L with
      | nil => intro s hs; exact hs
      | cons x L ih =>
        intro s hs
        apply ih
        intro ty tx hy1 hy2 hx1 hx2
        unfold fuelCell
        by_cases hcol : 0 ≤ x ∧ x < (w : ℤ)
        · rw [if_pos hcol]
          simp only [gset]
          split
          · have hfh := fuelHeat_bounds hfpos hfuel (hri s.2)
            have hold := hs ((h : ℤ) - 1) x (by omega) (by omega) hcol.1 hcol.2
            omega
          · exact hs ty tx hy1 hy2 hx1 hx2
        · rw [if_neg hcol]
          exact hs ty tx hy1 hy2 hx1 hx2
    intro ty tx hy1 hy2 hx1 hx2
    exact key (fuelBand w) (g, pos)
      (fun a b c d f k => ⟨(hg a b c d f k).1, le_trans (hg a b c d f k).2 (by omega)⟩)
      ty tx hy1 hy2 hx1 hx2

/-! ### Bounds on the diffusion output -/

theorem clampHeat_le {v b : ℤ} (hb : 0 ≤ b) (h : v ≤ b) : clampHeat v ≤ b := by
  unfold clampHeat
  split_ifs <;> omega

theorem diffOwn_nonneg (w : ℕ) (cur : Grid) (c : ℤ × ℤ) : 0 ≤ diffOwn w cur c := by
  unfold diffOwn
  split
  · omega
  · exact clampHeat_nonneg _

theorem diffOwn_le_100 (w : ℕ) (cur : Grid) (c : ℤ × ℤ) : diffOwn w cur c ≤ 100 := by
  unfold diffOwn
  split
  · omega
  · exact clampHeat_le_100 _

/-- A cell at heat at most 20 retains at most 17 after cooling. -/
theorem diffOwn_le_cold {w : ℕ} {cur : Grid} {y x : ℤ} (h20 : cur y x ≤ 20) :
    diffOwn w cur (y, x) ≤ 17 := by
  unfold diffOwn
  simp only
  split
  · omega
  · split_ifs <;>
      · refine clampHeat_le (by omega) (Frac.trunc_le (by omega) ?_)
        simp only [Frac.num_sub, Frac.den_sub, Frac.num_mul, Frac.den_mul, Frac.num_ofInt,
          Frac.den_ofInt, coolingRate, riseFraction, spreadFraction]
        omega

theorem lateDeposits_nonneg (w h : ℕ) (cur : Grid) (y x : ℤ) :
    0 ≤ lateDeposits w h cur y x := by
  unfold lateDeposits
  have t1 : 0 < cur (y + 1) x → 0 ≤ (Frac.ofInt (cur (y + 1) x) * riseFraction).trunc :=
    fun hq => Frac.trunc_nonneg (by
      simp only [Frac.num_mul, Frac.num_ofInt, riseFraction]
      omega)
  have t2 : 0 < cur y (x + 1) → 0 ≤ (Frac.ofInt (cur y (x + 1)) * spreadFraction).trunc :=
    fun hq => Frac.trunc_nonneg (by
      simp only [Frac.num_mul, Frac.num_ofInt, spreadFraction]
      omega)
  split_ifs with hA hB hB2
  · have := t1 hA.2
    have := t2 hB.2
    omega
  · have := t1 hA.2
    omega
  · have := t2 hB2.2
    omega
  · omega

/-- The late deposits total at most `38 + 12` when the current grid stays
below the post-fuel bound 129. -/
theorem lateDeposits_le {w h : ℕ} {cur : Grid} {y x : ℤ}
    (hb1 : y + 1 < (h : ℤ) → cur (y + 1) x ≤ 129)
    (hb2 : x + 1 < (w : ℤ) → cur y (x + 1) ≤ 129) :
    lateDeposits w h cur y x ≤ 50 := by
  unfold lateDeposits
  have t1 : cur (y + 1) x ≤ 129 → (Frac.ofInt (cur (y + 1) x) * riseFraction).trunc ≤ 38 :=
    fun hq => Frac.trunc_le (by omega) (by
      simp only [Frac.num_mul, Frac.den_mul, Frac.num_ofInt, Frac.den_ofInt, riseFraction]
      omega)
  have t2 : cur y (x + 1) ≤ 129 →
      (Frac.ofInt (cur y (x + 1)) * spreadFraction).trunc ≤ 12 :=
    fun hq => Frac.trunc_le (by omega) (by
      simp only [Frac.num_mul, Frac.den_mul, Frac.num_ofInt, Frac.den_ofInt, spreadFraction]
      omega)
  split_ifs with hA hB hB2
  · have := t1 (hb1 hA.1)
    have := t2 (hb2 hB.1)
    omega
  · have := t1 (hb1 hA.1)
    omega
  · have := t2 (hb2 hB2.1)
    omega
  · omega

/-! ### The grid-wide clamp invariant across one `update` -/

/-- Every in-range cell of `g` lies in `[0, 100]`. -/
def gridBounds (w h : ℕ) (g : Grid) : Prop :=
  ∀ ty tx : ℤ, 0 ≤ ty → ty < (h : ℤ) → 0 ≤ tx → tx < (w : ℤ) →
    0 ≤ g ty tx ∧ g ty tx ≤ 100

/-- The front grid an `update` call produces, phase by phase. -/
theorem update_heat_eq (ri : ℕ → ℕ) (rf : ℕ → Frac) (e : FireEngine) (pos : ℕ) :
    (update ri rf e pos).1.heat =
      (addTurbulence e.width e.height
        (addFuelSource e.width e.height e.fuelAmount ri e.heat pos).1 rf
        (updateHeatDiffusion e.width e.height
          (addFuelSource e.width e.height e.fuelAmount ri e.heat pos).1
          (applyWindEffects e.width e.height e.windStrength
            (addFuelSource e.width e.height e.fuelAmount ri e.heat pos).1 e.next))
        (addFuelSource e.width e.height e.fuelAmount ri e.heat pos).2).1 := rfl

/-- One `update` restores the grid-wide `[0, 100]` clamp invariant: cells
hotter than 20 are explicitly re-clamped by the turbulence pass, and colder
cells cannot exceed `17 + 38 + 12` after diffusion. -/
theorem update_heat_bounds {e : FireEngine} {ri : ℕ → ℕ} {rf : ℕ → Frac} {pos : ℕ}
    (hg : gridBounds e.width e.height e.heat) (hfuel : e.fuelAmount ≤ 100)
    (hri : RandNatOK ri) :
    gridBounds e.width e.height (update ri rf e pos).1.heat := by
  intro ty tx h1 h2 h3 h4
  rw [update_heat_eq]
  have hcb := @addFuelSource_bounds e.width e.height e.fuelAmount ri e.heat pos hg hfuel hri
  by_cases hhot :
      20 < (addFuelSource e.width e.height e.fuelAmount ri e.heat pos).1 ty tx
  · obtain ⟨v, hv⟩ := addTurbulence_hot (g := updateHeatDiffusion e.width e.height
      (addFuelSource e.width e.height e.fuelAmount ri e.heat pos).1
      (applyWindEffects e.width e.height e.windStrength
        (addFuelSource e.width e.height e.fuelAmount ri e.heat pos).1 e.next))
      h1 h2 h3 h4 hhot
    rw [hv]
    exact ⟨clampHeat_nonneg _, clampHeat_le_100 _⟩
  · rw [addTurbulence_cold (by omega)]
    rw [updateHeatDiffusion_in _ _ _ _ h1 h2 h3 h4]
    have o1 := diffOwn_nonneg e.width
      (addFuelSource e.width e.height e.fuelAmount ri e.heat pos).1 (ty, tx)
    have o2 : diffOwn e.width
        (addFuelSource e.width e.height e.fuelAmount ri e.heat pos).1 (ty, tx) ≤ 17 :=
      diffOwn_le_cold (by omega)
    have l1 := lateDeposits_nonneg e.width e.height
      (addFuelSource e.width e.height e.fuelAmount ri e.heat pos).1 ty tx
    have l2 : lateDeposits e.width e.height
        (addFuelSource e.width e.height e.fuelAmount ri e.heat pos).1 ty tx ≤ 50 :=
      lateDeposits_le
        (fun hr => (hcb (ty + 1) tx (by omega) (by omega) h3 h4).2)
        (fun hs => (hcb ty (tx + 1) h1 h2 (by omega) (by omega)).2)
    omega

/-! ### The particle cap -/

theorem updateParticles_length_le (wind : Frac) (rf : ℕ → Frac) :
    ∀ (ps : List FireParticle) (pos : ℕ),
      (updateParticles wind rf ps pos).1.length ≤ ps.length
  | [], _ => le_refl _
  | p :: ps, pos => by
    have ih := updateParticles_length_le wind rf ps (pos + 1)
    simp only [updateParticles]
    split
    · simp only [List.length_cons]
      omega
    · simp only [List.length_cons]
      omega

theorem genCells_length (cur : Grid) (ri : ℕ → ℕ) (rf : ℕ → Frac) :
    ∀ (L : List (ℤ × ℤ)) (ps : List FireParticle) (pos : ℕ),
      ps.length < maxParticles → (genCells cur ri rf L ps pos).1.length ≤ maxParticles
  | [], ps, pos, hcap => by
    simp only [genCells]
    omega
  | c :: L, ps, pos, hcap => by
    simp only [genCells]
    split
    · split
      · split
        · rename_i hstop
          simp only [List.length_append, List.length_cons, List.length_nil] at hstop ⊢
          omega
        · exact genCells_length cur ri rf L _ _ (by
            rename_i hstop
            simp only [List.length_append, List.length_cons, List.length_nil] at hstop ⊢
            omega)
      · exact genCells_length cur ri rf L ps _ hcap
    · exact genCells_length cur ri rf L ps pos hcap

theorem generateParticles_length {w h : ℕ} {cur : Grid} {ri : ℕ → ℕ} {rf : ℕ → Frac}
    {ps : List FireParticle} {pos : ℕ} (hps : ps.length ≤ maxParticles) :
    (generateParticles w h cur ri rf ps pos).1.length ≤ maxParticles := by
  unfold generateParticles
  split
  · exact hps
  · exact genCells_length cur ri rf _ ps pos (by omega)

theorem update_particles_le {e : FireEngine} {ri : ℕ → ℕ} {rf : ℕ → Frac} {pos : ℕ}
    (hp : e.particles.length ≤ maxParticles) :
    (update ri rf e pos).1.particles.length ≤ maxParticles := by
  simp only [update]
  split
  · exact generateParticles_length
      (le_trans (updateParticles_length_le e.windStrength rf e.particles _) hp)
  · exact le_trans (updateParticles_length_le e.windStrength rf e.particles _) hp

theorem foldl_explosionStep_cap (x y I : ℤ) (ri : ℕ → ℕ) (rf : ℕ → Frac) :
    ∀ (L : List ℕ) (s : List FireParticle × ℕ), s.1.length ≤ maxParticles →
      ((L.foldl (fun s2 _ => explosionParticleStep x y I ri rf s2) s).1.length ≤
        maxParticles)
  | [], _, hs => hs
  | a :: L, s, hs => by
    simp only [List.foldl_cons]
    apply foldl_explosionStep_cap x y I ri rf L
    unfold explosionParticleStep
    split
    · simp only [List.length_append, List.length_cons, List.length_nil]
      rename_i hlt
      unfold maxParticles at hlt ⊢
      omega
    · exact hs

theorem foldl_explosionStep_growth (x y I : ℤ) (ri : ℕ → ℕ) (rf : ℕ → Frac) :
    ∀ (L : List ℕ) (s : List FireParticle × ℕ),
      ((L.foldl (fun s2 _ => explosionParticleStep x y I ri rf s2) s).1.length ≤
        s.1.length + L.length)
  | [], _ => by simp
  | a :: L, s => by
    simp only [List.foldl_cons, List.length_cons]
    have ih := foldl_explosionStep_growth x y I ri rf L (explosionParticleStep x y I ri rf s)
    have hstep : (explosionParticleStep x y I ri rf s).1.length ≤ s.1.length + 1 := by
      unfold explosionParticleStep
      split
      · simp
      · simp
    omega

theorem createExplosion_particles_le {x y I : ℤ} {ri : ℕ → ℕ} {rf : ℕ → Frac}
    {e : FireEngine} {pos : ℕ} (hp : e.particles.length ≤ maxParticles) :
    (createExplosion x y I ri rf e pos).1.particles.length ≤ maxParticles := by
  simp only [createExplosion]
  exact foldl_explosionStep_cap x y I ri rf _ _ hp

theorem createExplosion_particles_growth (x y I : ℤ) (ri : ℕ → ℕ) (rf : ℕ → Frac)
    (e : FireEngine) (pos : ℕ) :
    (createExplosion x y I ri rf e pos).1.particles.length ≤ e.particles.length + 10 := by
  simp only [createExplosion]
  have := foldl_explosionStep_growth x y I ri rf (List.range 10) (e.particles, pos)
  simpa using this

/-! ### The engine invariant over all reachable states -/

/-- `reset` reseeds the bottom band with values `80 + rand % 20 ∈ [80, 99]`. -/
theorem reset_heat_bounds (ri : ℕ → ℕ) (e : FireEngine) (pos : ℕ) :
    gridBounds e.width e.height (reset ri e pos).1.heat := by
  have key : ∀ (L : List ℤ) (s : Grid × ℕ),
      (∀ ty tx : ℤ, 0 ≤ s.1 ty tx ∧ s.1 ty tx ≤ 100) →
      ∀ ty tx : ℤ, 0 ≤ ((L.foldl (fun (s2 : Grid × ℕ) x =>
          (gset s2.1 ((e.height : ℤ) - 1) x (baseHeat + (ri s2.2 : ℤ) % 20), s2.2 + 1)) s).1) ty tx ∧
        ((L.foldl (fun (s2 : Grid × ℕ) x =>
          (gset s2.1 ((e.height : ℤ) - 1) x (baseHeat + (ri s2.2 : ℤ) % 20), s2.2 + 1)) s).1) ty tx ≤ 100 := by
    intro L
    induction L with
    | nil => intro s hs; exact hs
    | cons a L ih =>
      intro s hs
      apply ih
      intro ty tx
      simp only [gset]
      split
      · have h1 := Int.emod_nonneg (ri s.2 : ℤ) (by omega : (20 : ℤ) ≠ 0)
        have h2 := Int.emod_lt_of_pos (ri s.2 : ℤ) (by omega : (0 : ℤ) < 20)
        unfold baseHeat
        omega
      · exact hs ty tx
  simp only [reset]
  split
  · intro ty tx h1 h2 h3 h4
    exact key (resetBand e.width) (zeroGrid, pos)
      (fun a b => by constructor <;> simp [zeroGrid]) ty tx
  · intro ty tx h1 h2 h3 h4
    constructor <;> simp [zeroGrid]

/-- The clamp/fuel/particle-cap invariant of a live engine. -/
def EngineInv (e : FireEngine) : Prop :=
  gridBounds e.width e.height e.heat ∧ 0 ≤ e.fuelAmount ∧ e.fuelAmount ≤ 100 ∧
    e.particles.length ≤ maxParticles

/-- The engine states reachable through the public interface: construction,
`update` (with draws in distribution range), `ignite_at`, `reset`,
`set_wind`, `add_fuel` and `set_color_scheme`. -/
inductive Reachable : FireEngine → Prop
  | construct (w h : ℕ) (stats0 : FireStats) (ri : ℕ → ℕ) (pos : ℕ) :
      Reachable (initEngine w h stats0 ri pos).1
  | step_update {e : FireEngine} (ri : ℕ → ℕ) (rf : ℕ → Frac) (pos : ℕ) :
      Reachable e → RandNatOK ri → Reachable (update ri rf e pos).1
  | step_ignite {e : FireEngine} (gx gy : ℤ) (ri : ℕ → ℕ) (rf : ℕ → Frac) (pos : ℕ) :
      Reachable e → Reachable (igniteAt gx gy ri rf e pos).1
  | step_reset {e : FireEngine} (ri : ℕ → ℕ) (pos : ℕ) :
      Reachable e → Reachable (reset ri e pos).1
  | step_setWind {e : FireEngine} (strength : Frac) :
      Reachable e → Reachable (setWind strength e)
  | step_addFuel {e : FireEngine} (amount : ℤ) :
      Reachable e → Reachable (addFuel amount e)
  | step_setScheme {e : FireEngine} (s : ColorScheme) :
      Reachable e → Reachable (setColorScheme s e)

theorem reset_fuel_eq (ri : ℕ → ℕ) (e : FireEngine) (pos : ℕ) :
    (reset ri e pos).1.fuelAmount = 50 := rfl

theorem reset_particles_eq (ri : ℕ → ℕ) (e : FireEngine) (pos : ℕ) :
    (reset ri e pos).1.particles = [] := rfl

theorem reset_inv (ri : ℕ → ℕ) (e : FireEngine) (pos : ℕ) :
    EngineInv (reset ri e pos).1 := by
  refine ⟨reset_heat_bounds ri e pos, ?_, ?_, ?_⟩
  · rw [reset_fuel_eq]
    omega
  · rw [reset_fuel_eq]
    omega
  · rw [reset_particles_eq]
    simp [maxParticles]

theorem clampFuel_bounds (v : ℤ) : 0 ≤ clampFuel v ∧ clampFuel v ≤ 100 := by
  unfold clampFuel
  split_ifs <;> omega

theorem update_width_eq (ri : ℕ → ℕ) (rf : ℕ → Frac) (e : FireEngine) (pos : ℕ) :
    (update ri rf e pos).1.width = e.width := by simp only [update]

theorem update_height_eq (ri : ℕ → ℕ) (rf : ℕ → Frac) (e : FireEngine) (pos : ℕ) :
    (update ri rf e pos).1.height = e.height := by simp only [update]

theorem update_fuel_eq (ri : ℕ → ℕ) (rf : ℕ → Frac) (e : FireEngine) (pos : ℕ) :
    (update ri rf e pos).1.fuelAmount = e.fuelAmount := by simp only [update]

theorem createExplosion_heat_eq (x y I : ℤ) (ri : ℕ → ℕ) (rf : ℕ → Frac)
    (e : FireEngine) (pos : ℕ) :
    (createExplosion x y I ri rf e pos).1.heat = e.heat := by simp only [createExplosion]

theorem inv_update {e : FireEngine} {ri : ℕ → ℕ} {rf : ℕ → Frac} {pos : ℕ}
    (ih : EngineInv e) (hri : RandNatOK ri) : EngineInv (update ri rf e pos).1 := by
  unfold EngineInv
  rw [update_width_eq, update_height_eq, update_fuel_eq]
  exact ⟨update_heat_bounds ih.1 ih.2.2.1 hri, ih.2.1, ih.2.2.1,
    update_particles_le ih.2.2.2⟩

theorem inv_ignite {e : FireEngine} {gx gy : ℤ} {ri : ℕ → ℕ} {rf : ℕ → Frac}
    {pos : ℕ} (ih : EngineInv e) : EngineInv (igniteAt gx gy ri rf e pos).1 := by
  unfold EngineInv igniteAt
  rw [createExplosion_heat_eq]
  exact ⟨ih.1, ih.2.1, ih.2.2.1, createExplosion_particles_le ih.2.2.2⟩

theorem reachable_inv {e : FireEngine} (hr : Reachable e) : EngineInv e := by
  induction hr with
  | construct w h stats0 ri pos => exact reset_inv ri _ pos
  | step_update ri rf pos hre hri ih => exact inv_update ih hri
  | step_ignite gx gy ri rf pos hre ih => exact inv_ignite ih
  | step_reset ri pos hre ih => exact reset_inv ri _ pos
  | step_setWind strength hre ih => exact ih
  | step_addFuel amount hre ih =>
    exact ⟨ih.1, (clampFuel_bounds _).1, (clampFuel_bounds _).2, ih.2.2.2⟩
  | step_setScheme s hre ih => exact ih

/-! ### Concrete engines and streams for witnesses -/

def riZero : ℕ → ℕ := fun _ => 0

def rfZero : ℕ → Frac := fun _ => Frac.ofInt 0

def statsZero : FireStats := ⟨0, 0, Frac.ofInt 0, 0, Frac.ofInt 0, 0, 0⟩

/-- A freshly constructed 2×2 engine. -/
def engineA : FireEngine := (initEngine 2 2 statsZero riZero 0).1

/-- `engineA` after one `update`. -/
def engineA1 : FireEngine := (update riZero rfZero engineA 0).1

/-- A freshly constructed 7×7 engine. -/
def engineB : FireEngine := (initEngine 7 7 statsZero riZero 0).1

/-- `engineB` with the front grid also cleared: a fully cold engine (both
buffers all zero). -/
def engineBcold : FireEngine := { engineB with heat := zeroGrid }

/-! ### Claims -/

/-- Claim C1: for every reachable engine state, after any call to `update()`
every in-range cell of the front heat grid (the one `render()` and
`get_stats()` read) lies in `[0, 100]`.  Hot cells are re-clamped by the
turbulence pass; cells at heat ≤ 20 cannot exceed `17 + 38 + 12` after
diffusion.  (The `rand_int` draws are assumed in their distribution range
`[0, 100]`.) -/
theorem clamp_invariant_after_update {e : FireEngine} (hre : Reachable e)
    {ri : ℕ → ℕ} (rf : ℕ → Frac) (pos : ℕ) (hri : RandNatOK ri) {y x : ℤ}
    (hy0 : 0 ≤ y) (hyh : y < ((update ri rf e pos).1.height : ℤ))
    (hx0 : 0 ≤ x) (hxw : x < ((update ri rf e pos).1.width : ℤ)) :
    0 ≤ (update ri rf e pos).1.heat y x ∧ (update ri rf e pos).1.heat y x ≤ 100 :=
  (reachable_inv (Reachable.step_update ri rf pos hre hri)).1 y x hy0 hyh hx0 hxw

theorem clamp_invariant_after_update_witness :
    Reachable engineA ∧ RandNatOK riZero ∧
      0 ≤ (update riZero rfZero engineA 0).1.heat 1 0 ∧
      (update riZero rfZero engineA 0).1.heat 1 0 ≤ 100 := by
  have hre : Reachable engineA := Reachable.construct 2 2 statsZero riZero 0
  have hri : RandNatOK riZero := fun n => Nat.zero_le _
  have h := clamp_invariant_after_update hre rfZero 0 hri (y := 1) (x := 0)
    (by omega) (by decide) (by omega) (by decide)
  exact ⟨hre, hri, h.1, h.2⟩

/-- Claim C8: the particle collection never exceeds `max_particles = 200`:
from any reachable state, both `update()` and `ignite_at` leave at most 200
live particles, because spawning is refused at the cap. -/
theorem particle_cap {e : FireEngine} (hre : Reachable e) {ri : ℕ → ℕ}
    (rf : ℕ → Frac) (pos : ℕ) (hri : RandNatOK ri) (gx gy : ℤ) :
    (update ri rf e pos).1.particles.length ≤ maxParticles ∧
      (igniteAt gx gy ri rf e pos).1.particles.length ≤ maxParticles :=
  ⟨(reachable_inv (Reachable.step_update ri rf pos hre hri)).2.2.2,
    (reachable_inv (Reachable.step_ignite gx gy ri rf pos hre)).2.2.2⟩

theorem particle_cap_witness :
    Reachable engineA ∧ RandNatOK riZero ∧
      (update riZero rfZero engineA 0).1.particles.length ≤ maxParticles ∧
      (igniteAt 1 1 riZero rfZero engineA 0).1.particles.length ≤ maxParticles := by
  have hre : Reachable engineA := Reachable.construct 2 2 statsZero riZero 0
  have hri : RandNatOK riZero := fun n => Nat.zero_le _
  have h := particle_cap hre rfZero 0 hri 1 1
  exact ⟨hre, hri, h.1, h.2⟩

/-- The domain condition of the fuel-injection expression
`rand % (fuel_amount / 2)` of `add_fuel_source`: the modulus is nonzero. -/
def fuelInjectionDefined (fuel : ℤ) : Prop := fuelModulus fuel ≠ 0

/-- Claim C3, counterexample: `fuel_amount = 1` is positive and in the
clamped range, yet `fuel_amount / 2 = 0`, so the modulo in
`add_fuel_source` is a modulo by zero (undefined behaviour in C++). -/
theorem fuel_modulus_zero_at_one :
    (0 : ℤ) < 1 ∧ (1 : ℤ) ≤ 100 ∧ ¬fuelInjectionDefined 1 := by
  unfold fuelInjectionDefined
  decide

/-- Claim C3 (amended): for every fuel amount in `[2, 100]` the modulus
`fuel_amount / 2` is nonzero, so the fuel-injection computation is
well-defined; `fuel_amount = 1` is the sole positive clamped value where it
is a modulo by zero. -/
theorem fuel_injection_defined {fuel : ℤ} (h2 : 2 ≤ fuel) (h100 : fuel ≤ 100) :
    fuelInjectionDefined fuel := by
  unfold fuelInjectionDefined fuelModulus
  omega

theorem fuel_injection_defined_witness : fuelInjectionDefined 2 :=
  fuel_injection_defined (by omega) (by omega)

/-- Modelled from the spec: the color table claimed for the ice scheme,
thresholds 30/60 (the bands in the code's order: cyan, white, yellow). -/
def specIceColorTable (heatLevel : ℤ) : ℤ :=
  if heatLevel < 30 then FIRE_CYAN
  else if heatLevel < 60 then FIRE_WHITE
  else FIRE_YELLOW

/-- Claim C7, counterexample: at heat 27 the code's ice-fire scheme returns
white (its real thresholds are 25/50), while the claimed 30/60 table would
still be in the first band. -/
theorem ice_threshold_counterexample :
    getFireColor 27 ColorScheme.ICE_FIRE = FIRE_WHITE ∧
      specIceColorTable 27 = FIRE_CYAN ∧ FIRE_WHITE ≠ FIRE_CYAN := by decide

/-- Claim C7 (amended): the per-scheme threshold tables of
`get_fire_color`, exactly as in the code — 20/40/70 for classic, 30/60 for
blue and plasma, **25/50** (not 30/60) for ice, modulo-6 cycling every 15
heat units for rainbow, 40 for matrix — together with the `heat ≤ 0`
background case and the `heat ≥ 100` per-scheme hottest colors. -/
theorem color_scheme_thresholds {heatLevel : ℤ} (h0 : 0 < heatLevel)
    (h100 : heatLevel < 100) :
    getFireColor heatLevel ColorScheme.CLASSIC_FIRE =
      (if heatLevel < 20 then FIRE_RED else if heatLevel < 40 then FIRE_ORANGE
        else if heatLevel < 70 then FIRE_YELLOW else FIRE_WHITE) ∧
    getFireColor heatLevel ColorScheme.BLUE_FLAME =
      (if heatLevel < 30 then FIRE_BLUE else if heatLevel < 60 then FIRE_CYAN
        else FIRE_WHITE) ∧
    getFireColor heatLevel ColorScheme.ICE_FIRE =
      (if heatLevel < 25 then FIRE_CYAN else if heatLevel < 50 then FIRE_WHITE
        else FIRE_YELLOW) ∧
    getFireColor heatLevel ColorScheme.PLASMA =
      (if heatLevel < 30 then FIRE_MAGENTA else if heatLevel < 60 then FIRE_CYAN
        else FIRE_WHITE) ∧
    getFireColor heatLevel ColorScheme.RAINBOW = FIRE_RED + heatLevel / 15 % 6 ∧
    getFireColor heatLevel ColorScheme.MATRIX =
      (if heatLevel < 40 then FIRE_GREEN else FIRE_YELLOW) ∧
    (∀ h2 : ℤ, h2 ≤ 0 → ∀ s : ColorScheme, getFireColor h2 s = FIRE_BLACK) ∧
    (∀ h2 : ℤ, 100 ≤ h2 →
      getFireColor h2 ColorScheme.CLASSIC_FIRE = FIRE_WHITE ∧
      getFireColor h2 ColorScheme.BLUE_FLAME = FIRE_CYAN ∧
      getFireColor h2 ColorScheme.ICE_FIRE = FIRE_WHITE ∧
      getFireColor h2 ColorScheme.PLASMA = FIRE_MAGENTA ∧
      getFireColor h2 ColorScheme.RAINBOW = FIRE_YELLOW ∧
      getFireColor h2 ColorScheme.MATRIX = FIRE_GREEN) := by
  refine ⟨?_, ?_, ?_, ?_, ?_, ?_, ?_, ?_⟩
  · unfold getFireColor
    rw [if_neg (by omega), if_neg (by omega)]
  · unfold getFireColor
    rw [if_neg (by omega), if_neg (by omega)]
  · unfold getFireColor
    rw [if_neg (by omega), if_neg (by omega)]
  · unfold getFireColor
    rw [if_neg (by omega), if_neg (by omega)]
  · unfold getFireColor
    rw [if_neg (by omega), if_neg (by omega)]
  · unfold getFireColor
    rw [if_neg (by omega), if_neg (by omega)]
  · intro h2 hle s
    unfold getFireColor
    rw [if_pos hle]
  · intro h2 hge
    refine ⟨?_, ?_, ?_, ?_, ?_, ?_⟩ <;>
      · unfold getFireColor
        rw [if_neg (by omega), if_pos (by omega)]

theorem color_scheme_thresholds_witness :
    (0 : ℤ) < 30 ∧ (30 : ℤ) < 100 ∧
      getFireColor 30 ColorScheme.ICE_FIRE =
        (if (30 : ℤ) < 25 then FIRE_CYAN else if (30 : ℤ) < 50 then FIRE_WHITE
          else FIRE_YELLOW) :=
  ⟨by omega, by omega, (color_scheme_thresholds (by omega) (by omega)).2.2.1⟩

/-- The statistics snapshot produced by `update` records the fuel level the
engine had when the statistics were recomputed. -/
theorem update_stats_fuel_eq (ri : ℕ → ℕ) (rf : ℕ → Frac) (e : FireEngine) (pos : ℕ) :
    (update ri rf e pos).1.stats.fuel_level = e.fuelAmount := by
  simp only [update, updateStatistics]

/-- Claim C5, counterexample: on a 2×2 engine after one `update` (so the
stored snapshot has `fuel_level = 50`), calling `add_fuel(1000)` leaves
`get_stats().fuel_level` at 50, not 100 — `add_fuel` only clamps the
internal `fuel_amount`, and `get_stats()` returns the stale snapshot until
the next `update()` recomputes it. -/
theorem fuel_stats_stale_counterexample :
    getStats (addFuel 1000 engineA1) = getStats engineA1 ∧
      (getStats (addFuel 1000 engineA1)).fuel_level = 50 ∧ (50 : ℤ) ≠ 100 ∧
      (getStats (addFuel (-1000) engineA1)).fuel_level = 50 ∧ (50 : ℤ) ≠ 0 := by
  refine ⟨rfl, by decide, by omega, by decide, by omega⟩

/-- Claim C5 (amended): `add_fuel(1000)` saturates the internal fuel level
at 100 and `add_fuel(-1000)` at 0, but the change appears in
`get_stats().fuel_level` only after the next `update()` recomputes the
snapshot; immediately after the call the snapshot is unchanged. -/
theorem add_fuel_saturates {e : FireEngine} (h0 : 0 ≤ e.fuelAmount)
    (h1 : e.fuelAmount ≤ 100) (ri : ℕ → ℕ) (rf : ℕ → Frac) (pos : ℕ) :
    (addFuel 1000 e).fuelAmount = 100 ∧ (addFuel (-1000) e).fuelAmount = 0 ∧
      getStats (addFuel 1000 e) = getStats e ∧
      getStats (addFuel (-1000) e) = getStats e ∧
      (update ri rf (addFuel 1000 e) pos).1.stats.fuel_level = 100 ∧
      (update ri rf (addFuel (-1000) e) pos).1.stats.fuel_level = 0 := by
  have hup : (addFuel 1000 e).fuelAmount = 100 := by
    show clampFuel (e.fuelAmount + 1000) = 100
    unfold clampFuel
    split_ifs <;> omega
  have hdn : (addFuel (-1000) e).fuelAmount = 0 := by
    show clampFuel (e.fuelAmount + -1000) = 0
    unfold clampFuel
    split_ifs <;> omega
  refine ⟨hup, hdn, rfl, rfl, ?_, ?_⟩
  · rw [update_stats_fuel_eq]
    exact hup
  · rw [update_stats_fuel_eq]
    exact hdn

theorem add_fuel_saturates_witness :
    0 ≤ engineA1.fuelAmount ∧ engineA1.fuelAmount ≤ 100 ∧
      (addFuel 1000 engineA1).fuelAmount = 100 ∧
      (update riZero rfZero (addFuel (-1000) engineA1) 0).1.stats.fuel_level = 0 := by
  have h := add_fuel_saturates (e := engineA1) (by decide) (by decide) riZero rfZero 0
  exact ⟨by decide, by decide, h.1, h.2.2.2.2.2⟩

/-- A 1×2 current grid with both cells at heat 50. -/
def twoCellsCur : Grid := fun y x => if y = 0 ∧ (x = 0 ∨ x = 1) then 50 else 0

/-- A 1×1 current grid with the single cell at heat 40. -/
def topRowCur : Grid := fun y x => if y = 0 ∧ x = 0 then 40 else 0

/-- Modelled from the spec: fully additive accumulation into the next
buffer — a cell's new value is its own retained heat plus the deposits of
all three of its neighbours (rise from below, leftward spread from the
right neighbour, rightward spread from the left neighbour), none
discarded. -/
def specAdditiveNext (w h : ℕ) (cur : Grid) (y x : ℤ) : ℤ :=
  diffOwn w cur (y, x) +
    (if y + 1 < (h : ℤ) ∧ 0 < cur (y + 1) x then
      (Frac.ofInt (cur (y + 1) x) * riseFraction).trunc else 0) +
    (if x + 1 < (w : ℤ) ∧ 0 < cur y (x + 1) then
      (Frac.ofInt (cur y (x + 1)) * spreadFraction).trunc else 0) +
    (if 0 < x ∧ 0 < cur y (x - 1) then
      (Frac.ofInt (cur y (x - 1)) * spreadFraction).trunc else 0)

/-- Claim C2, counterexample: on a 1×2 grid with both cells at 50, the
right cell ends the diffusion pass at 37 — its own write `next[y][x] = ...`
uses `=`, not `+=`, so it discards the 5 points of rightward spread the
left neighbour had already deposited there; fully additive accumulation
would give 42. -/
theorem additive_accumulation_counterexample :
    updateHeatDiffusion 2 1 twoCellsCur zeroGrid 0 1 = 37 ∧
      specAdditiveNext 2 1 twoCellsCur 0 1 = 42 ∧ (37 : ℤ) ≠ 42 := by
  refine ⟨by decide, by decide, by omega⟩

/-- Claim C2 (amended): the diffusion pass is not fully additive.  Because
the own-cell write at line 424 assigns (`=`) instead of accumulating
(`+=`), every contribution deposited into a cell before that cell's own
row-major turn — the rightward spread from its left neighbour, and any wind
transfer from the preceding wind pass — is discarded.  The value a cell
ends the pass with is exactly its own retained heat plus only the two
deposits that arrive after its own write: the rise from the cell below and
the leftward spread from its right neighbour.  (In particular the result
is also independent of the next buffer's prior contents.) -/
theorem diffusion_overwrite_semantics (w h : ℕ) (cur nxt : Grid) {y x : ℤ}
    (hy0 : 0 ≤ y) (hyh : y < (h : ℤ)) (hx0 : 0 ≤ x) (hxw : x < (w : ℤ)) :
    updateHeatDiffusion w h cur nxt y x =
      diffOwn w cur (y, x) + lateDeposits w h cur y x :=
  updateHeatDiffusion_in w h cur nxt hy0 hyh hx0 hxw

theorem diffusion_overwrite_semantics_witness :
    updateHeatDiffusion 2 1 twoCellsCur zeroGrid 0 1 =
      diffOwn 2 twoCellsCur (0, 1) + lateDeposits 2 1 twoCellsCur 0 1 :=
  diffusion_overwrite_semantics 2 1 twoCellsCur zeroGrid (by omega) (by omega)
    (by omega) (by omega)

/-- Modelled from the spec: the retained heat of a top-row cell if the rise
fraction were subtracted there just as in every other row (the other
deductions as in the code). -/
def specTopRowRetained (w : ℕ) (cur : Grid) (x : ℤ) : ℤ :=
  if cur 0 x ≤ 0 then 0
  else
    let ch := Frac.ofInt (cur 0 x)
    let n0 := ch * coolingRate
    let n1 := n0 - ch * riseFraction
    let n2 := if 0 < x then n1 - ch * spreadFraction else n1
    let n3 := if x < (w : ℤ) - 1 then n2 - ch * spreadFraction else n2
    clampHeat n3.trunc

/-- Claim C6, counterexample: on a 1×1 grid at heat 40 the diffusion pass
leaves 34 = trunc(40 · 0.85): the top row never subtracts the rise
fraction, because the subtraction is guarded by `y > 0`.  If the top row
behaved like the other rows the cell would retain only 22. -/
theorem top_row_rise_counterexample :
    updateHeatDiffusion 1 1 topRowCur zeroGrid 0 0 = 34 ∧
      specTopRowRetained 1 topRowCur 0 = 22 ∧ (34 : ℤ) ≠ 22 := by
  refine ⟨by decide, by decide, by omega⟩

/-- Claim C6 (amended): for a top-row cell with positive current heat, the
rise heat is indeed lost (nothing is added to any `row − 1` cell, there is
no wrapping), but — contrary to the claim — the top row does *not* subtract
the 0.3 rise fraction from its own retained heat: the subtraction sits
inside the `y > 0` branch, so a top-row cell keeps
`heat · 0.85` minus only the applicable lateral spread deductions. -/
theorem top_row_no_rise {w h : ℕ} (cur nxt : Grid) {x : ℤ} (hh : 0 < h)
    (hx0 : 0 ≤ x) (hxw : x < (w : ℤ)) (hpos : 0 < cur 0 x) :
    updateHeatDiffusion w h cur nxt 0 x =
      diffOwn w cur (0, x) + lateDeposits w h cur 0 x ∧
    diffOwn w cur (0, x) =
      clampHeat ((if x < (w : ℤ) - 1 then
          (if 0 < x then
            Frac.ofInt (cur 0 x) * coolingRate - Frac.ofInt (cur 0 x) * spreadFraction
          else Frac.ofInt (cur 0 x) * coolingRate) -
            Frac.ofInt (cur 0 x) * spreadFraction
        else if 0 < x then
          Frac.ofInt (cur 0 x) * coolingRate - Frac.ofInt (cur 0 x) * spreadFraction
        else Frac.ofInt (cur 0 x) * coolingRate).trunc) := by
  constructor
  · exact updateHeatDiffusion_in w h cur nxt (by omega) (by omega) hx0 hxw
  · unfold diffOwn
    simp only [lt_self_iff_false, if_false]
    rw [if_neg (by omega : ¬cur 0 x ≤ 0)]

theorem top_row_no_rise_witness :
    updateHeatDiffusion 1 1 topRowCur zeroGrid 0 0 =
        diffOwn 1 topRowCur (0, 0) + lateDeposits 1 1 topRowCur 0 0 ∧
      diffOwn 1 topRowCur (0, 0) =
        clampHeat ((if (0 : ℤ) < (1 : ℕ) - 1 then
            (if (0 : ℤ) < 0 then
              Frac.ofInt (topRowCur 0 0) * coolingRate -
                Frac.ofInt (topRowCur 0 0) * spreadFraction
            else Frac.ofInt (topRowCur 0 0) * coolingRate) -
              Frac.ofInt (topRowCur 0 0) * spreadFraction
          else if (0 : ℤ) < 0 then
            Frac.ofInt (topRowCur 0 0) * coolingRate -
              Frac.ofInt (topRowCur 0 0) * spreadFraction
          else Frac.ofInt (topRowCur 0 0) * coolingRate).trunc) :=
  top_row_no_rise (w := 1) (h := 1) topRowCur zeroGrid (by omega) (by omega)
    (by omega) (by decide)

/-- `update` never reads `windDirection`: updating an engine whose
`windDirection` was replaced yields the same result with the replacement
carried along unchanged. -/
theorem update_windDirection_eq (ri : ℕ → ℕ) (rf : ℕ → Frac) (e : FireEngine)
    (pos : ℕ) (d : Frac) :
    update ri rf { e with windDirection := d } pos =
      ({ (update ri rf e pos).1 with windDirection := d }, (update ri rf e pos).2) := by
  simp only [update]

/-- On an engine whose wind strength is already `0`, `set_wind(0)` changes
only the never-read `wind_direction` member (to `-1`, from the unclamped
sign test `strength > 0`). -/
theorem setWind_zero_eq {e : FireEngine} (hw : e.windStrength = Frac.ofInt 0) :
    setWind (Frac.ofInt 0) e = { e with windDirection := -Frac.ofInt 1 } := by
  unfold setWind
  rw [if_neg (by decide : ¬Frac.ofInt 0 < Frac.ofInt 0)]
  rw [show clampWind (Frac.ofInt 0) = Frac.ofInt 0 from rfl, ← hw]

/-- Iterating `update` preserves the windDirection-irrelevance of
`update_windDirection_eq`. -/
theorem updateN_windDirection (ri : ℕ → ℕ) (rf : ℕ → Frac) (d : Frac) :
    ∀ (n : ℕ) (e : FireEngine) (pos : ℕ),
      updateN ri rf n ({ e with windDirection := d }, pos) =
        ({ (updateN ri rf n (e, pos)).1 with windDirection := d },
          (updateN ri rf n (e, pos)).2)
  | 0, e, pos => rfl
  | n + 1, e, pos => by
    simp only [updateN]
    rw [update_windDirection_eq]
    rw [updateN_windDirection ri rf d n (update ri rf e pos).1 (update ri rf e pos).2]

/-- Claim C9: from any engine whose wind strength is `0` (as after
construction or `reset`), calling `set_wind(0)` and then running `update()`
N times with the same random stream produces exactly the same trajectory —
the same heat grids and the same stream position at every step — as never
calling `set_wind`.  The full states agree except for the write-only
`wind_direction` member, which `set_wind(0)` sets to `-1` and which no
other code ever reads. -/
theorem set_wind_zero_noop {e : FireEngine} (hw : e.windStrength = Frac.ofInt 0)
    (ri : ℕ → ℕ) (rf : ℕ → Frac) (n pos : ℕ) :
    updateN ri rf n (setWind (Frac.ofInt 0) e, pos) =
      ({ (updateN ri rf n (e, pos)).1 with windDirection := -Frac.ofInt 1 },
        (updateN ri rf n (e, pos)).2) ∧
    (updateN ri rf n (setWind (Frac.ofInt 0) e, pos)).1.heat =
      (updateN ri rf n (e, pos)).1.heat := by
  have h1 : updateN ri rf n (setWind (Frac.ofInt 0) e, pos) =
      ({ (updateN ri rf n (e, pos)).1 with windDirection := -Frac.ofInt 1 },
        (updateN ri rf n (e, pos)).2) := by
    rw [setWind_zero_eq hw, updateN_windDirection]
  exact ⟨h1, by rw [h1]⟩

theorem set_wind_zero_noop_witness :
    engineA.windStrength = Frac.ofInt 0 ∧
      (updateN riZero rfZero 1 (setWind (Frac.ofInt 0) engineA, 0)).1.heat =
        (updateN riZero rfZero 1 (engineA, 0)).1.heat :=
  ⟨rfl, (set_wind_zero_noop rfl riZero rfZero 1 0).2⟩

/-! ### Pointwise behaviour of the explosion write loop -/

/-- An explosion-loop write for offset `c` changes no cell other than its
own target `(y + dy, x + dx)`. -/
theorem explosionWrite_ne {w h : ℕ} {x y I : ℤ} {g : Grid} {c : ℤ × ℤ} {ty tx : ℤ}
    (hne : ¬(ty = y + c.1 ∧ tx = x + c.2)) :
    explosionWrite w h x y I g c ty tx = g ty tx := by
  simp only [explosionWrite, setHeatAt, apply_ite (fun gg : Grid => gg ty tx)]
  split_ifs
  · exact gset_ne g _ _ _ hne
  · rfl
  · rfl

/-- An explosion-loop write never touches an out-of-range cell
(`set_heat_at` is bounds-checked). -/
theorem explosionWrite_out {w h : ℕ} {x y I : ℤ} {g : Grid} {c : ℤ × ℤ} {ty tx : ℤ}
    (hout : ¬(0 ≤ ty ∧ ty < (h : ℤ) ∧ 0 ≤ tx ∧ tx < (w : ℤ))) :
    explosionWrite w h x y I g c ty tx = g ty tx := by
  simp only [explosionWrite, setHeatAt, apply_ite (fun gg : Grid => gg ty tx), gset]
  split_ifs <;> first | rfl | omega

/-- The value an explosion-loop write puts into its own in-range target when
the squared distance `dx² + dy²` is within `radius² = 9`. -/
theorem explosionWrite_self {w h : ℕ} {x y I : ℤ} {g : Grid} {b a : ℤ}
    (hd : a * a + b * b ≤ 9)
    (hin : 0 ≤ x + a ∧ x + a < (w : ℤ) ∧ 0 ≤ y + b ∧ y + b < (h : ℤ)) :
    explosionWrite w h x y I g (b, a) (y + b) (x + a) =
      clampHeat (Frac.ofInt I * (Frac.ofInt 1 - (Frac.ofInt (a * a + b * b)).divInt 9)).trunc := by
  simp only [explosionWrite, setHeatAt]
  rw [if_pos hd, if_pos hin, gset_self]

/-- The explosion offset list in the shape the rectangle lemmas use. -/
theorem explosionOffsets_eq :
    explosionOffsets = (List.range 7).flatMap
      (fun i => (List.range 7).map ((fun (i j : ℕ) => ((i : ℤ) - 3, (j : ℤ) - 3)) i)) := rfl

/-- The whole explosion write loop leaves every out-of-range cell of the
back buffer unchanged. -/
theorem explosionFold_out {w h : ℕ} {x y I : ℤ} {ty tx : ℤ} (g : Grid)
    (hout : ¬(0 ≤ ty ∧ ty < (h : ℤ) ∧ 0 ≤ tx ∧ tx < (w : ℤ))) :
    explosionOffsets.foldl (explosionWrite w h x y I) g ty tx = g ty tx := by
  apply foldl_grid_untouched
  intro g2 c hc
  exact explosionWrite_out hout

/-- The value the whole explosion write loop leaves at the in-range target
of offset `(dy, dx) = (b, a)` within the radius: later writes never target
the same cell, so the cell holds `clampHeat(trunc(I·(1 − d/9)))`. -/
theorem explosion_value {w h : ℕ} (x y I : ℤ) (g : Grid) {b a : ℤ}
    (hb : -3 ≤ b ∧ b ≤ 3) (ha : -3 ≤ a ∧ a ≤ 3) (hd : a * a + b * b ≤ 9)
    (hin : 0 ≤ x + a ∧ x + a < (w : ℤ) ∧ 0 ≤ y + b ∧ y + b < (h : ℤ)) :
    explosionOffsets.foldl (explosionWrite w h x y I) g (y + b) (x + a) =
      clampHeat (Frac.ofInt I * (Frac.ofInt 1 - (Frac.ofInt (a * a + b * b)).divInt 9)).trunc := by
  obtain ⟨A, B, heq, hA, hB, hBmem⟩ :=
    @rect_decomp _ (fun (i j : ℕ) => ((i : ℤ) - 3, (j : ℤ) - 3)) 7 7
      (b + 3).toNat (a + 3).toNat (by omega) (by omega)
  have hba : (((b + 3).toNat : ℤ) - 3, ((a + 3).toNat : ℤ) - 3) = ((b, a) : ℤ × ℤ) := by
    simp only [Prod.mk.injEq]
    omega
  rw [hba] at heq
  rw [explosionOffsets_eq, heq, List.foldl_append, List.foldl_cons]
  have hstep : ∀ (g2 : Grid) (c : ℤ × ℤ), c ∈ B →
      explosionWrite w h x y I g2 c (y + b) (x + a) = g2 (y + b) (x + a) := by
    intro g2 c hc
    rcases hB c hc with ⟨i, j, hi, hj, rfl, horder⟩
    apply explosionWrite_ne
    simp only
    rintro ⟨h1, h2⟩
    omega
  rw [foldl_grid_untouched (explosionWrite w h x y I) B _ hstep]
  exact explosionWrite_self hd hin

theorem createExplosion_next_eq (x y I : ℤ) (ri : ℕ → ℕ) (rf : ℕ → Frac)
    (e : FireEngine) (pos : ℕ) :
    (createExplosion x y I ri rf e pos).1.next =
      explosionOffsets.foldl (explosionWrite e.width e.height x y I) e.next := by
  simp only [createExplosion]

/-- Zero distance gives zero falloff: the center write is exactly `I`. -/
theorem falloff_center (I : ℤ) :
    (Frac.ofInt I * (Frac.ofInt 1 - (Frac.ofInt 0).divInt 9)).trunc = I := by
  rw [show Frac.ofInt 1 - (Frac.ofInt 0).divInt 9 = ⟨9, 9, by omega⟩ from rfl]
  simp only [Frac.trunc, Frac.num_mul, Frac.den_mul, Frac.num_ofInt, Frac.den_ofInt]
  rw [one_mul]
  exact Int.mul_tdiv_cancel I (by omega)

/-- Squared distance `9 = radius²` gives full falloff: the write is `0`. -/
theorem falloff_boundary (I : ℤ) :
    (Frac.ofInt I * (Frac.ofInt 1 - (Frac.ofInt 9).divInt 9)).trunc = 0 := by
  rw [show Frac.ofInt 1 - (Frac.ofInt 9).divInt 9 = ⟨0, 9, by omega⟩ from rfl]
  simp only [Frac.trunc, Frac.num_mul, Frac.den_mul, Frac.num_ofInt, Frac.den_ofInt]
  rw [mul_zero, Int.zero_tdiv]

/-- Claim C4, counterexample: igniting the center of a fully cold 7×7
engine leaves the front heat grid — the one `get_heat_at`, `render()` and
`get_stats()` read — at 0 everywhere; the center cell does not read back as
the intensity 80, because every explosion write goes through `set_heat_at`
into the back buffer. -/
theorem ignite_front_center_counterexample :
    (igniteAt 3 3 riZero rfZero engineBcold 0).1.heat 3 3 = 0 ∧ (0 : ℤ) ≠ 80 := by
  refine ⟨by decide, by omega⟩

/-- Claim C4 (amended): for an interior target (all offsets within `radius
= 3` in range) and intensity `I ∈ [0, 100]`, `create_explosion` — and hence
`ignite_at` — leaves the front heat grid unchanged and writes the falloff
pattern into the **back** buffer: exactly `I` at the center (distance 0 ⇒
zero falloff) and exactly `0` at the four cells at squared distance
`radius² = 9` (full falloff at the radius boundary). -/
theorem explosion_back_buffer_falloff {e : FireEngine} {x y I : ℤ}
    (ri : ℕ → ℕ) (rf : ℕ → Frac) (pos : ℕ)
    (hx : 3 ≤ x ∧ x + 3 < (e.width : ℤ)) (hy : 3 ≤ y ∧ y + 3 < (e.height : ℤ))
    (hI : 0 ≤ I ∧ I ≤ 100) :
    (createExplosion x y I ri rf e pos).1.heat = e.heat ∧
    (createExplosion x y I ri rf e pos).1.next y x = I ∧
    (createExplosion x y I ri rf e pos).1.next y (x + 3) = 0 ∧
    (createExplosion x y I ri rf e pos).1.next (y + 3) x = 0 ∧
    (createExplosion x y I ri rf e pos).1.next y (x - 3) = 0 ∧
    (createExplosion x y I ri rf e pos).1.next (y - 3) x = 0 := by
  refine ⟨createExplosion_heat_eq x y I ri rf e pos, ?_, ?_, ?_, ?_, ?_⟩
  · have h1 := explosion_value (w := e.width) (h := e.height) x y I e.next
      (b := 0) (a := 0) (by omega) (by omega) (by omega) (by omega)
    norm_num at h1
    rw [createExplosion_next_eq, h1, falloff_center, clampHeat_of_bounds hI.1 hI.2]
  · have h1 := explosion_value (w := e.width) (h := e.height) x y I e.next
      (b := 0) (a := 3) (by omega) (by omega) (by omega) (by omega)
    norm_num at h1
    rw [createExplosion_next_eq, h1, falloff_boundary]
    decide
  · have h1 := explosion_value (w := e.width) (h := e.height) x y I e.next
      (b := 3) (a := 0) (by omega) (by omega) (by omega) (by omega)
    norm_num at h1
    rw [createExplosion_next_eq, h1, falloff_boundary]
    decide
  · have h1 := explosion_value (w := e.width) (h := e.height) x y I e.next
      (b := 0) (a := -3) (by omega) (by omega) (by omega) (by omega)
    norm_num at h1
    rw [createExplosion_next_eq]
    rw [show x + (-3 : ℤ) = x - 3 from by omega] at h1
    rw [h1, falloff_boundary]
    decide
  · have h1 := explosion_value (w := e.width) (h := e.height) x y I e.next
      (b := -3) (a := 0) (by omega) (by omega) (by omega) (by omega)
    norm_num at h1
    rw [createExplosion_next_eq]
    rw [show y + (-3 : ℤ) = y - 3 from by omega] at h1
    rw [h1, falloff_boundary]
    decide

theorem explosion_back_buffer_falloff_witness :
    (createExplosion 3 3 80 riZero rfZero engineB 0).1.heat = engineB.heat ∧
    (createExplosion 3 3 80 riZero rfZero engineB 0).1.next 3 3 = 80 ∧
    (createExplosion 3 3 80 riZero rfZero engineB 0).1.next 3 (3 + 3) = 0 ∧
    (createExplosion 3 3 80 riZero rfZero engineB 0).1.next (3 + 3) 3 = 0 ∧
    (createExplosion 3 3 80 riZero rfZero engineB 0).1.next 3 (3 - 3) = 0 ∧
    (createExplosion 3 3 80 riZero rfZero engineB 0).1.next (3 - 3) 3 = 0 :=
  explosion_back_buffer_falloff riZero rfZero 0 (by decide) (by decide) (by omega)

/-! ### `update` ignores the previous contents of the back buffer -/

/-- Two engines differing only in their back buffers — and only at
out-of-range cells at that — have identical `update` results: the wind pass
only adds to in-range cells, and the diffusion pass overwrites every
in-range cell with a value independent of the back buffer. -/
theorem update_next_irrelevant (ri : ℕ → ℕ) (rf : ℕ → Frac) (e : FireEngine)
    (pos : ℕ) (n2 : Grid)
    (hagree : ∀ ty tx : ℤ,
      ¬(0 ≤ ty ∧ ty < (e.height : ℤ) ∧ 0 ≤ tx ∧ tx < (e.width : ℤ)) →
        e.next ty tx = n2 ty tx) :
    update ri rf e pos = update ri rf { e with next := n2 } pos := by
  have hD : ∀ cur : Grid,
      updateHeatDiffusion e.width e.height cur
          (applyWindEffects e.width e.height e.windStrength cur e.next) =
        updateHeatDiffusion e.width e.height cur
          (applyWindEffects e.width e.height e.windStrength cur n2) := by
    intro cur
    funext ty tx
    by_cases hin : 0 ≤ ty ∧ ty < (e.height : ℤ) ∧ 0 ≤ tx ∧ tx < (e.width : ℤ)
    · rw [updateHeatDiffusion_in _ _ _ _ hin.1 hin.2.1 hin.2.2.1 hin.2.2.2,
        updateHeatDiffusion_in _ _ _ _ hin.1 hin.2.1 hin.2.2.1 hin.2.2.2]
    · rw [updateHeatDiffusion_out _ _ _ _ hin, updateHeatDiffusion_out _ _ _ _ hin,
        applyWindEffects_out hin, applyWindEffects_out hin]
      exact hagree ty tx hin
  simp only [update]
  rw [hD]

/-- Replacing the back buffer by the result of an explosion write loop does
not change the next `update`: in range the diffusion pass overwrites it,
out of range the loop never wrote. -/
theorem update_explosion_next (gx gy I2 : ℤ) (ri : ℕ → ℕ) (rf : ℕ → Frac)
    (e : FireEngine) (pos : ℕ) (P : List FireParticle) :
    update ri rf
      { e with
          next := explosionOffsets.foldl (explosionWrite e.width e.height gx gy I2) e.next
          particles := P } pos =
      update ri rf { e with particles := P } pos :=
  (update_next_irrelevant ri rf { e with particles := P } pos
    (explosionOffsets.foldl (explosionWrite e.width e.height gx gy I2) e.next)
    (fun _ _ hout => (explosionFold_out e.next hout).symm)).symm

/-- Claim C10: `ignite_at` never touches the front heat grid (all explosion
heat goes through `set_heat_at` into the back buffer), and the next
`update()` is entirely insensitive to what the explosion wrote there,
because its diffusion pass overwrites every in-range back-buffer cell
before the swap and the bounds-checked explosion writes never hit
out-of-range cells.  Consequently updating the ignited engine gives exactly
the same result as updating the engine with only `ignite_at`'s particle
additions applied — the appended particles (at most 10) are the call's sole
surviving effect. -/
theorem ignite_frame_effect (gx gy : ℤ) (ri0 : ℕ → ℕ) (rf0 : ℕ → Frac)
    (pos0 : ℕ) (ri : ℕ → ℕ) (rf : ℕ → Frac) (e : FireEngine) (pos : ℕ) :
    (igniteAt gx gy ri0 rf0 e pos0).1.heat = e.heat ∧
    (igniteAt gx gy ri0 rf0 e pos0).1.particles.length ≤ e.particles.length + 10 ∧
    update ri rf (igniteAt gx gy ri0 rf0 e pos0).1 pos =
      update ri rf
        { e with particles := (igniteAt gx gy ri0 rf0 e pos0).1.particles } pos := by
  have he2 : (igniteAt gx gy ri0 rf0 e pos0).1 =
      { e with
          next := explosionOffsets.foldl (explosionWrite e.width e.height gx gy 80) e.next
          particles := (igniteAt gx gy ri0 rf0 e pos0).1.particles } := by
    simp only [igniteAt, createExplosion]
  refine ⟨by rw [he2], createExplosion_particles_growth gx gy 80 ri0 rf0 e pos0, ?_⟩
  rw [he2]
  simp only
  exact update_explosion_next gx gy 80 ri rf e pos
    (igniteAt gx gy ri0 rf0 e pos0).1.particles

end FireSim

